import Mathlib

/-!
Verification of the lunar rocket-tracking service's per-channel ordered-delivery
engine, translated from the Go sources:

* `internal/models` — `Envelope`, `MessageContent`, `RocketState`,
  `RocketSummary`, the message-type and status constants;
* `internal/storage/repository.go` — `ProcessMessage`,
  `processMessageWithOrdering`, `bufferMessage`, `processBufferedMessages`,
  `getUpdateFuncForMessage`, `GetRocket`, `ListRockets`;
* the sorting layer — `ParseSortOptions`, `sortRocketSummaries`,
  `ValidSortFields`, `ValidOrders`.

Modelling conventions:

* Go `int` is a 64-bit two's-complement machine integer on the supported
  targets; it is modelled as `Int` with the wraparound `wrapInt64` applied
  where the source performs arithmetic on the speed (`rocket.Speed +=
  msg.Message.By`, `rocket.Speed -= msg.Message.By`), since two messages
  suffice to overflow it.  Plain assignments (`rocket.Speed =
  msg.Message.LaunchSpeed`) copy a value that is already a Go `int` and do
  not wrap.  The bookkeeping increment `lastProcessedMessageNumber + 1`
  starts from `0` and advances by exactly `1` per applied envelope, so in
  every execution of fewer than `2^63` submissions it never reaches the
  wrap point and unbounded arithmetic is exact for it; it is therefore kept
  over plain `Int`.  `time.Time` is modelled as an `Int` timestamp
  (`time.Time` is totally ordered and the zero value is modelled as `0`).
* The nested `Envelope.Metadata` struct is flattened into the `Envelope`
  structure; the getters `GetChannel`, `GetMessageNumber`, `GetMessageTime`,
  `GetMessageType` are field projections.
* The per-channel `MessageBuffer` min-heap (Go `container/heap` over slices,
  `Less` comparing `GetMessageNumber`) is modelled through its priority-queue
  contract: a list kept sorted in nondecreasing `messageNumber` order, in
  which `heap.Push` is order-preserving insertion, `(*buffer)[0]` is the head
  (a minimal element) and `heap.Pop` of the top removes the head.
* The repository is modelled per channel: the map lookup/creation in
  `ProcessMessage` becomes an `Option RocketEntry` argument (`none` = the
  channel was never seen).  Locks, contexts and cancellation are out of scope
  of the claims treated here; the success path of the locking code is what is
  modelled.
* Go's `getUpdateFuncForMessage` returns `nil` for an unknown message type
  and otherwise a closure returning `false` when a payload precondition
  fails; this is modelled as `Option (RocketState → Option RocketState)`.
-/

/-- Message content union, from `internal/models` (`MessageContent`).
The Go field `by` collides with a Lean keyword, hence the guillemets. -/
structure MessageContent where
  type : String
  launchSpeed : Int
  mission : String
  «by» : Int
  reason : String
  newMission : String
deriving DecidableEq

/-- Inbound message, from `internal/models` (`Envelope`); the `Metadata`
struct is flattened into the four leading fields. -/
structure Envelope where
  channel : String
  messageNumber : Int
  messageTime : Int
  messageType : String
  message : MessageContent
deriving DecidableEq

/-- Message type constant from `internal/models`. -/
def MessageTypeRocketLaunched : String := "RocketLaunched"

/-- Message type constant from `internal/models`. -/
def MessageTypeRocketSpeedIncreased : String := "RocketSpeedIncreased"

/-- Message type constant from `internal/models`. -/
def MessageTypeRocketSpeedDecreased : String := "RocketSpeedDecreased"

/-- Message type constant from `internal/models`. -/
def MessageTypeRocketExploded : String := "RocketExploded"

/-- Message type constant from `internal/models`. -/
def MessageTypeRocketMissionChanged : String := "RocketMissionChanged"

/-- Rocket status constant from `internal/models` (`RocketStatusActive`). -/
def RocketStatusActive : String := "Active"

/-- Rocket status constant from `internal/models` (`RocketStatusExploded`). -/
def RocketStatusExploded : String := "Exploded"

/-- Authoritative per-channel record, from `internal/models` (`RocketState`). -/
structure RocketState where
  id : String
  type : String
  speed : Int
  mission : String
  exploded : Bool
  reason : String
  updatedAt : Int
  createdAt : Int
  lastProcessedMessageNumber : Int
deriving DecidableEq

/-- Listing projection, from `internal/models` (`RocketSummary`). -/
structure RocketSummary where
  id : String
  type : String
  speed : Int
  mission : String
  status : String
  updatedAt : Int
deriving DecidableEq

/-- Per-channel entry, from `repository.go` (`rocketEntry`): the rocket state
together with its ordering buffer (the entry mutex is out of scope). -/
structure RocketEntry where
  state : RocketState
  buffer : List Envelope
deriving DecidableEq

/-- Largest value of Go's 64-bit `int`: `2^63 - 1`. -/
def maxInt64 : Int := 9223372036854775807

/-- Two's-complement wraparound of Go's 64-bit `int` arithmetic:
`wrapInt64 x` is the unique integer congruent to `x` modulo `2^64` lying in
`[-2^63, 2^63)`.  The literals are `2^63` and `2^64`. -/
def wrapInt64 (x : Int) : Int :=
  (x + 9223372036854775808) % 18446744073709551616 - 9223372036854775808

/-- Translation of `getUpdateFuncForMessage` (repository.go): `none` models
the Go `nil` return for an unknown message type; the returned closure yields
`none` exactly where the Go closure returns `false` (failed payload
precondition) and otherwise the updated rocket.  The speed arithmetic
(`rocket.Speed += msg.Message.By` and `rocket.Speed -= msg.Message.By`) is
Go `int` arithmetic and wraps, hence `wrapInt64`; the `Launched` branch
assigns `msg.Message.LaunchSpeed` directly, without arithmetic. -/
def getUpdateFuncForMessage (msg : Envelope) :
    Option (RocketState → Option RocketState) :=
  if msg.messageType = MessageTypeRocketLaunched then
    some (fun rocket =>
      if msg.message.type = "" ∨ msg.message.mission = "" then none
      else some { rocket with
        type := msg.message.type
        mission := msg.message.mission
        speed := msg.message.launchSpeed
        createdAt := msg.messageTime
        exploded := false
        reason := "" })
  else if msg.messageType = MessageTypeRocketSpeedIncreased then
    some (fun rocket =>
      if msg.message.«by» ≤ 0 then none
      else some { rocket with
        speed := wrapInt64 (rocket.speed + msg.message.«by») })
  else if msg.messageType = MessageTypeRocketSpeedDecreased then
    some (fun rocket =>
      if msg.message.«by» ≤ 0 then none
      else
        let s := wrapInt64 (rocket.speed - msg.message.«by»)
        some { rocket with speed := if s < 0 then 0 else s })
  else if msg.messageType = MessageTypeRocketExploded then
    some (fun rocket =>
      if msg.message.reason = "" then none
      else some { rocket with exploded := true, reason := msg.message.reason })
  else if msg.messageType = MessageTypeRocketMissionChanged then
    some (fun rocket =>
      if msg.message.newMission = "" then none
      else some { rocket with mission := msg.message.newMission })
  else none

/-- Convenience composition: the effect of `getUpdateFuncForMessage` on a
rocket; `none` covers both the unknown-type (`nil` func) case and a failing
payload precondition. -/
def applyUpdate (msg : Envelope) (rocket : RocketState) : Option RocketState :=
  match getUpdateFuncForMessage msg with
  | none => none
  | some f => f rocket

/-- Translation of `heap.Push` on `MessageBuffer` (via `bufferMessage`):
insertion keeping the buffer sorted by `messageNumber`, new element placed
after existing ones with the same number. -/
def bufferPush (e : Envelope) : List Envelope → List Envelope
  | [] => [e]
  | b :: rest =>
    if e.messageNumber < b.messageNumber then e :: b :: rest
    else b :: bufferPush e rest

/-- Translation of `processBufferedMessages` (repository.go): drain the
buffer while its top is the next expected message; a message whose update
func is `nil` or fails is popped and discarded; a successful application
advances `LastProcessedMessageNumber` and `UpdatedAt`; an explosion clears
the buffer and stops.  `fuel` bounds the loop (callers pass the buffer
length, which suffices since every iteration pops one element). -/
def processBufferedMessages :
    Nat → RocketState → List Envelope → RocketState × List Envelope
  | 0, rocket, buffer => (rocket, buffer)
  | fuel + 1, rocket, buffer =>
    match buffer with
    | [] => (rocket, [])
    | next :: rest =>
      let expected := rocket.lastProcessedMessageNumber + 1
      if next.messageNumber ≠ expected then (rocket, buffer)
      else
        match applyUpdate next rocket with
        | none => processBufferedMessages fuel rocket rest
        | some r =>
          let r2 := { r with
            lastProcessedMessageNumber := expected
            updatedAt := next.messageTime }
          if r2.exploded then (r2, [])
          else processBufferedMessages fuel r2 rest

/-- Translation of `processMessageWithOrdering` (repository.go), reached only
for messages whose update func is non-nil: terminal gate, duplicate check,
in-order fast path (with buffer clearing on explosion, else drain), and
buffering of future messages. -/
def processMessageWithOrdering (entry : RocketEntry) (e : Envelope) :
    RocketEntry × Bool :=
  let rocket := entry.state
  let msgNum := e.messageNumber
  if rocket.exploded ∧ e.messageType ≠ MessageTypeRocketLaunched then
    (entry, false)
  else if msgNum ≤ rocket.lastProcessedMessageNumber then
    (entry, false)
  else if msgNum = rocket.lastProcessedMessageNumber + 1 then
    match applyUpdate e rocket with
    | none => (entry, false)
    | some r =>
      let r2 := { r with
        lastProcessedMessageNumber := msgNum
        updatedAt := e.messageTime }
      if r2.exploded then ({ state := r2, buffer := [] }, true)
      else
        let drained := processBufferedMessages entry.buffer.length r2 entry.buffer
        ({ state := drained.1, buffer := drained.2 }, true)
  else
    ({ entry with buffer := bufferPush e entry.buffer }, true)

/-- State installed by `ProcessMessage` for a previously unseen channel:
`ID` is the channel, `Type` is copied from the envelope payload's `Type`
field, the remaining fields are Go zero values. -/
def freshRocketState (e : Envelope) : RocketState :=
  { id := e.channel
    type := e.message.type
    speed := 0
    mission := ""
    exploded := false
    reason := ""
    updatedAt := 0
    createdAt := 0
    lastProcessedMessageNumber := 0 }

/-- Translation of `ProcessMessage` (repository.go), specialised to one
channel: find-or-create the entry, then reject unknown message types
(`nil` update func) and otherwise delegate to the ordering protocol.
The boolean is the `processed` result reported to the client. -/
def processMessage (st : Option RocketEntry) (e : Envelope) :
    Option RocketEntry × Bool :=
  let entry := st.getD { state := freshRocketState e, buffer := [] }
  match getUpdateFuncForMessage e with
  | none => (some entry, false)
  | some _ =>
    let res := processMessageWithOrdering entry e
    (some res.1, res.2)

/-- Channel state after a submission (dropping the `processed` flag). -/
def submitEnvelope (st : Option RocketEntry) (e : Envelope) :
    Option RocketEntry :=
  (processMessage st e).1

/-- Channel state after a sequence of submissions. -/
def submitAll (st : Option RocketEntry) (l : List Envelope) :
    Option RocketEntry :=
  l.foldl submitEnvelope st

/-- Translation of `GetRocket` (repository.go), specialised to one channel:
returns a deep copy of the state when the channel exists. -/
def getRocket (st : Option RocketEntry) : Option RocketState :=
  st.map RocketEntry.state

/-- Model of Go `strings.ToLower` on the ASCII range (the recognised sort
fields and orders are ASCII): lowercase every character.  (Core
`String.toLower` is avoided because its well-founded recursion does not
reduce in the kernel.) -/
def toLowerAscii (s : String) : String := String.mk (s.data.map Char.toLower)

/-- Sort options, from the sorting layer (`SortOptions`). -/
structure SortOptions where
  field : String
  order : String
deriving DecidableEq

/-- Translation of `NewSortOptions`. -/
def NewSortOptions : SortOptions := { field := "id", order := "asc" }

/-- Translation of the `ValidSortFields` map: membership test. -/
def ValidSortFields (f : String) : Bool :=
  f = "id" || f = "type" || f = "speed" || f = "mission" || f = "status" ||
    f = "updatedat"

/-- Translation of the `ValidOrders` map: membership test. -/
def ValidOrders (o : String) : Bool :=
  o = "asc" || o = "desc"

/-- Translation of `ParseSortOptions`: lowercase both inputs, keep them when
recognised, otherwise fall back to the defaults `id` / `asc`. -/
def ParseSortOptions (sortField order : String) : SortOptions :=
  let f := toLowerAscii sortField
  let o := toLowerAscii order
  { field := if f ≠ "" ∧ ValidSortFields f then f else "id"
    order := if o ≠ "" ∧ ValidOrders o then o else "asc" }

/-- Lexicographic comparison of char lists: the order Go's `<` induces on
strings (byte-lexicographic, which on UTF-8 equals code-point order).
Defined structurally so that it evaluates in the kernel (core `String.lt`'s
decision procedure is iterator-based well-founded recursion and does not). -/
def charListLt : List Char → List Char → Bool
  | [], [] => false
  | [], _ :: _ => true
  | _ :: _, [] => false
  | a :: as, b :: bs =>
    if a < b then true else if b < a then false else charListLt as bs

/-- Go string comparison `a < b`. -/
def strLt (a b : String) : Bool := charListLt a.data b.data

/-- Boolean comparison of Go ints. -/
def intLt (a b : Int) : Bool := decide (a < b)

/-- Field comparison of `sortRocketSummaries`: the `switch` over
`strings.ToLower(options.Field)`, defaulting to `ID`. -/
def summaryFieldLess (field : String) (a b : RocketSummary) : Bool :=
  let f := toLowerAscii field
  if f = "id" then strLt a.id b.id
  else if f = "type" then strLt a.type b.type
  else if f = "speed" then intLt a.speed b.speed
  else if f = "mission" then strLt a.mission b.mission
  else if f = "status" then strLt a.status b.status
  else if f = "updatedat" then intLt a.updatedAt b.updatedAt
  else strLt a.id b.id

/-- Comparator handed to `sort.SliceStable`: the field result, negated when
descending order was requested. -/
def summaryLess (options : SortOptions) (a b : RocketSummary) : Bool :=
  let result := summaryFieldLess options.field a b
  if options.order = "desc" then !result else result

/-- One step of straight insertion on a reversed accumulator: the new
element moves left past every element `b` with `less x b`, exactly the
bubble-left loop of the insertion sort underlying `sort.SliceStable`. -/
def insertReversed (less : α → α → Bool) (x : α) : List α → List α
  | [] => [x]
  | b :: r => if less x b then b :: insertReversed less x r else x :: b :: r

/-- Model of `sort.SliceStable`: straight insertion sort (elements are
inserted in input order, each bubbling left while `less` holds against its
left neighbour).  For a strict-weak-order comparator this is the unique
stable order, which is the contract of `sort.SliceStable`; Go's blocked
insertion sort realises exactly this bubbling on each block. -/
def sortSliceStable (less : α → α → Bool) (l : List α) : List α :=
  (l.foldl (fun racc x => insertReversed less x racc) []).reverse

/-- Translation of `sortRocketSummaries` (options form, sorting layer). -/
def sortRocketSummaries (summaries : List RocketSummary)
    (options : SortOptions) : List RocketSummary :=
  sortSliceStable (summaryLess options) summaries

/-- Summary built by `ListRockets` for one entry, including its derived
`status` string (note the lowercase literals in repository.go). -/
def summarize (state : RocketState) : RocketSummary :=
  { id := state.id
    type := state.type
    speed := state.speed
    mission := state.mission
    status := if state.exploded then "exploded" else "active"
    updatedAt := state.updatedAt }

/-- Translation of `ListRockets` (repository.go): summarise a snapshot of
the entries (the Go map iteration order is abstracted as the order of the
`snapshot` list), then sort only when `sortField` is non-empty (composing
`ParseSortOptions` with `sortRocketSummaries`, as the repository glue
does). -/
def ListRockets (snapshot : List RocketState) (sortField order : String) :
    List RocketSummary :=
  let summaries := snapshot.map summarize
  if sortField ≠ "" then
    sortRocketSummaries summaries (ParseSortOptions sortField order)
  else summaries

example :
    applyUpdate
      { channel := "r1", messageNumber := 1, messageTime := 5,
        messageType := "RocketLaunched",
        message := { type := "Falcon-9", launchSpeed := 500, mission := "M",
                     «by» := 0, reason := "", newMission := "" } }
      (freshRocketState
        { channel := "r1", messageNumber := 1, messageTime := 5,
          messageType := "RocketLaunched",
          message := { type := "Falcon-9", launchSpeed := 500, mission := "M",
                       «by» := 0, reason := "", newMission := "" } })
      = some { id := "r1", type := "Falcon-9", speed := 500, mission := "M",
               exploded := false, reason := "", updatedAt := 0, createdAt := 5,
               lastProcessedMessageNumber := 0 } := by decide

/-! ### Equation lemmas for the drain loop and the ordering protocol -/

/-- Result of a successful application: bookkeeping fields set by the caller. -/
def recordApplied (r : RocketState) (num time : Int) : RocketState :=
  { r with lastProcessedMessageNumber := num, updatedAt := time }

theorem drain_zero (r : RocketState) (buf : List Envelope) :
    processBufferedMessages 0 r buf = (r, buf) := rfl

theorem drain_nil (fuel : Nat) (r : RocketState) :
    processBufferedMessages fuel r [] = (r, []) := by
  cases fuel <;> rfl

theorem drain_cons_gap (fuel : Nat) (r : RocketState) (next : Envelope)
    (rest : List Envelope)
    (hnum : next.messageNumber ≠ r.lastProcessedMessageNumber + 1) :
    processBufferedMessages (fuel + 1) r (next :: rest) = (r, next :: rest) := by
  simp only [processBufferedMessages]
  rw [if_pos hnum]

theorem drain_cons_fail (fuel : Nat) (r : RocketState) (next : Envelope)
    (rest : List Envelope)
    (hnum : next.messageNumber = r.lastProcessedMessageNumber + 1)
    (happ : applyUpdate next r = none) :
    processBufferedMessages (fuel + 1) r (next :: rest) =
      processBufferedMessages fuel r rest := by
  simp only [processBufferedMessages]
  rw [if_neg (by simp [hnum]), happ]

theorem drain_cons_apply_exploded (fuel : Nat) (r r1 : RocketState)
    (next : Envelope) (rest : List Envelope)
    (hnum : next.messageNumber = r.lastProcessedMessageNumber + 1)
    (happ : applyUpdate next r = some r1) (hex : r1.exploded = true) :
    processBufferedMessages (fuel + 1) r (next :: rest) =
      (recordApplied r1 (r.lastProcessedMessageNumber + 1) next.messageTime,
        []) := by
  simp only [processBufferedMessages]
  rw [if_neg (by simp [hnum]), happ]
  simp only [recordApplied]
  rw [if_pos (by simp [hex])]

theorem drain_cons_apply_ok (fuel : Nat) (r r1 : RocketState)
    (next : Envelope) (rest : List Envelope)
    (hnum : next.messageNumber = r.lastProcessedMessageNumber + 1)
    (happ : applyUpdate next r = some r1) (hex : r1.exploded = false) :
    processBufferedMessages (fuel + 1) r (next :: rest) =
      processBufferedMessages fuel
        (recordApplied r1 (r.lastProcessedMessageNumber + 1) next.messageTime)
        rest := by
  simp only [processBufferedMessages]
  rw [if_neg (by simp [hnum]), happ]
  simp only [recordApplied]
  rw [if_neg (by simp [hex])]

theorem ordering_gate (entry : RocketEntry) (e : Envelope)
    (hex : entry.state.exploded = true)
    (hty : e.messageType ≠ MessageTypeRocketLaunched) :
    processMessageWithOrdering entry e = (entry, false) := by
  simp only [processMessageWithOrdering]
  rw [if_pos ⟨by simp [hex], hty⟩]

theorem ordering_dup (entry : RocketEntry) (e : Envelope)
    (hgate : ¬(entry.state.exploded = true ∧
      e.messageType ≠ MessageTypeRocketLaunched))
    (hle : e.messageNumber ≤ entry.state.lastProcessedMessageNumber) :
    processMessageWithOrdering entry e = (entry, false) := by
  simp only [processMessageWithOrdering]
  rw [if_neg (by simpa using hgate), if_pos hle]

theorem ordering_inorder_fail (entry : RocketEntry) (e : Envelope)
    (hgate : ¬(entry.state.exploded = true ∧
      e.messageType ≠ MessageTypeRocketLaunched))
    (hnum : e.messageNumber = entry.state.lastProcessedMessageNumber + 1)
    (happ : applyUpdate e entry.state = none) :
    processMessageWithOrdering entry e = (entry, false) := by
  simp only [processMessageWithOrdering]
  rw [if_neg (by simpa using hgate), if_neg (by omega), if_pos hnum, happ]

theorem ordering_inorder_exploded (entry : RocketEntry) (e : Envelope) (r1 : RocketState)
    (hgate : ¬(entry.state.exploded = true ∧
      e.messageType ≠ MessageTypeRocketLaunched))
    (hnum : e.messageNumber = entry.state.lastProcessedMessageNumber + 1)
    (happ : applyUpdate e entry.state = some r1) (hex : r1.exploded = true) :
    processMessageWithOrdering entry e =
      ({ state := recordApplied r1 e.messageNumber e.messageTime,
         buffer := [] }, true) := by
  simp only [processMessageWithOrdering]
  rw [if_neg (by simpa using hgate), if_neg (by omega), if_pos hnum, happ]
  simp only [recordApplied]
  rw [if_pos (by simp [hex])]

theorem ordering_inorder_ok (entry : RocketEntry) (e : Envelope) (r1 : RocketState)
    (hgate : ¬(entry.state.exploded = true ∧
      e.messageType ≠ MessageTypeRocketLaunched))
    (hnum : e.messageNumber = entry.state.lastProcessedMessageNumber + 1)
    (happ : applyUpdate e entry.state = some r1) (hex : r1.exploded = false) :
    processMessageWithOrdering entry e =
      (let drained := processBufferedMessages entry.buffer.length
          (recordApplied r1 e.messageNumber e.messageTime) entry.buffer
       ({ state := drained.1, buffer := drained.2 }, true)) := by
  simp only [processMessageWithOrdering]
  rw [if_neg (by simpa using hgate), if_neg (by omega), if_pos hnum, happ]
  simp only [recordApplied]
  rw [if_neg (by simp [hex])]

theorem ordering_buffered (entry : RocketEntry) (e : Envelope)
    (hgate : ¬(entry.state.exploded = true ∧
      e.messageType ≠ MessageTypeRocketLaunched))
    (hgt : entry.state.lastProcessedMessageNumber < e.messageNumber)
    (hne : e.messageNumber ≠ entry.state.lastProcessedMessageNumber + 1) :
    processMessageWithOrdering entry e =
      ({ entry with buffer := bufferPush e entry.buffer }, true) := by
  simp only [processMessageWithOrdering]
  rw [if_neg (by simpa using hgate), if_neg (by omega), if_neg hne]

theorem processMessage_unknown (st : Option RocketEntry) (e : Envelope)
    (h : getUpdateFuncForMessage e = none) :
    processMessage st e =
      (some (st.getD { state := freshRocketState e, buffer := [] }), false) := by
  simp only [processMessage, h]

theorem processMessage_known (st : Option RocketEntry) (e : Envelope) (f : RocketState → Option RocketState)
    (h : getUpdateFuncForMessage e = some f) :
    processMessage st e =
      ((some (processMessageWithOrdering
          (st.getD { state := freshRocketState e, buffer := [] }) e).1),
        (processMessageWithOrdering
          (st.getD { state := freshRocketState e, buffer := [] }) e).2) := by
  simp only [processMessage, h]

/-! ### Shared drain lemmas -/

/-- Draining never decreases `LastProcessedMessageNumber`. -/
theorem processBufferedMessages_mono (fuel : Nat) (r : RocketState)
    (buf : List Envelope) :
    r.lastProcessedMessageNumber ≤
      (processBufferedMessages fuel r buf).1.lastProcessedMessageNumber := by
  induction fuel generalizing r buf with
  | zero => simp [drain_zero]
  | succ n ih =>
    cases buf with
    | nil => simp [drain_nil]
    | cons next rest =>
      by_cases hnum : next.messageNumber = r.lastProcessedMessageNumber + 1
      · cases happ : applyUpdate next r with
        | none => rw [drain_cons_fail n r next rest hnum happ]; exact ih r rest
        | some r1 =>
          cases hex : r1.exploded with
          | true =>
            rw [drain_cons_apply_exploded n r r1 next rest hnum happ hex]
            simp [recordApplied]
          | false =>
            rw [drain_cons_apply_ok n r r1 next rest hnum happ hex]
            exact le_trans (by simp [recordApplied]) (ih _ rest)
      · rw [drain_cons_gap n r next rest hnum]

/-- Draining from an unexploded rocket into an exploded one empties the
buffer (the explosion branch clears it). -/
theorem processBufferedMessages_exploded_nil (fuel : Nat) (r : RocketState)
    (buf : List Envelope) (h0 : r.exploded = false)
    (h1 : (processBufferedMessages fuel r buf).1.exploded = true) :
    (processBufferedMessages fuel r buf).2 = [] := by
  induction fuel generalizing r buf with
  | zero => rw [drain_zero] at h1; simp [h0] at h1
  | succ n ih =>
    cases buf with
    | nil => rw [drain_nil]
    | cons next rest =>
      by_cases hnum : next.messageNumber = r.lastProcessedMessageNumber + 1
      · cases happ : applyUpdate next r with
        | none =>
          rw [drain_cons_fail n r next rest hnum happ] at h1 ⊢
          exact ih r rest h0 h1
        | some r1 =>
          cases hex : r1.exploded with
          | true => rw [drain_cons_apply_exploded n r r1 next rest hnum happ hex]
          | false =>
            rw [drain_cons_apply_ok n r r1 next rest hnum happ hex] at h1 ⊢
            exact ih _ rest (by simp [recordApplied, hex]) h1
      · rw [drain_cons_gap n r next rest hnum] at h1
        simp [h0] at h1

/-! ### Per-type equations for `applyUpdate` -/

theorem applyUpdate_of_getUpdate (e : Envelope) (r : RocketState)
    (f : RocketState → Option RocketState)
    (h : getUpdateFuncForMessage e = some f) : applyUpdate e r = f r := by
  simp [applyUpdate, h]

theorem applyUpdate_some_known (e : Envelope) (r r1 : RocketState)
    (h : applyUpdate e r = some r1) :
    ∃ f, getUpdateFuncForMessage e = some f := by
  unfold applyUpdate at h
  cases hg : getUpdateFuncForMessage e with
  | none => rw [hg] at h; exact absurd h (by simp)
  | some f => exact ⟨f, rfl⟩

theorem applyUpdate_launched (e : Envelope) (r : RocketState)
    (h : e.messageType = MessageTypeRocketLaunched) :
    applyUpdate e r =
      if e.message.type = "" ∨ e.message.mission = "" then none
      else some { r with
        type := e.message.type
        mission := e.message.mission
        speed := e.message.launchSpeed
        createdAt := e.messageTime
        exploded := false
        reason := "" } := by
  simp [applyUpdate, getUpdateFuncForMessage, h]

theorem applyUpdate_speedIncreased (e : Envelope) (r : RocketState)
    (h : e.messageType = MessageTypeRocketSpeedIncreased) :
    applyUpdate e r =
      if e.message.«by» ≤ 0 then none
      else some { r with
        speed := wrapInt64 (r.speed + e.message.«by») } := by
  simp [applyUpdate, getUpdateFuncForMessage, h, MessageTypeRocketSpeedIncreased,
    MessageTypeRocketLaunched]

theorem applyUpdate_speedDecreased (e : Envelope) (r : RocketState)
    (h : e.messageType = MessageTypeRocketSpeedDecreased) :
    applyUpdate e r =
      if e.message.«by» ≤ 0 then none
      else some { r with
        speed := if wrapInt64 (r.speed - e.message.«by») < 0 then 0
                 else wrapInt64 (r.speed - e.message.«by») } := by
  simp [applyUpdate, getUpdateFuncForMessage, h, MessageTypeRocketSpeedDecreased,
    MessageTypeRocketLaunched, MessageTypeRocketSpeedIncreased]

theorem applyUpdate_exploded (e : Envelope) (r : RocketState)
    (h : e.messageType = MessageTypeRocketExploded) :
    applyUpdate e r =
      if e.message.reason = "" then none
      else some { r with exploded := true, reason := e.message.reason } := by
  simp [applyUpdate, getUpdateFuncForMessage, h, MessageTypeRocketExploded,
    MessageTypeRocketLaunched, MessageTypeRocketSpeedIncreased,
    MessageTypeRocketSpeedDecreased]

theorem applyUpdate_missionChanged (e : Envelope) (r : RocketState)
    (h : e.messageType = MessageTypeRocketMissionChanged) :
    applyUpdate e r =
      if e.message.newMission = "" then none
      else some { r with mission := e.message.newMission } := by
  simp [applyUpdate, getUpdateFuncForMessage, h, MessageTypeRocketMissionChanged,
    MessageTypeRocketLaunched, MessageTypeRocketSpeedIncreased,
    MessageTypeRocketSpeedDecreased, MessageTypeRocketExploded]

theorem applyUpdate_unknownType (e : Envelope) (r : RocketState)
    (h1 : e.messageType ≠ MessageTypeRocketLaunched)
    (h2 : e.messageType ≠ MessageTypeRocketSpeedIncreased)
    (h3 : e.messageType ≠ MessageTypeRocketSpeedDecreased)
    (h4 : e.messageType ≠ MessageTypeRocketExploded)
    (h5 : e.messageType ≠ MessageTypeRocketMissionChanged) :
    applyUpdate e r = none := by
  simp [applyUpdate, getUpdateFuncForMessage, h1, h2, h3, h4, h5]

/-- Applying a message to an unexploded rocket yields an exploded one exactly
for a (successful) `RocketExploded` message. -/
theorem applyUpdate_exploded_iff (e : Envelope) (r r1 : RocketState)
    (h0 : r.exploded = false) (happ : applyUpdate e r = some r1) :
    (r1.exploded = true ↔ e.messageType = MessageTypeRocketExploded) := by
  by_cases hL : e.messageType = MessageTypeRocketLaunched
  · rw [applyUpdate_launched e r hL] at happ
    by_cases hc : e.message.type = "" ∨ e.message.mission = ""
    · rw [if_pos hc] at happ; exact absurd happ (by simp)
    · rw [if_neg hc] at happ
      have := Option.some.inj happ
      subst this
      simp [hL, MessageTypeRocketLaunched, MessageTypeRocketExploded]
  · by_cases hI : e.messageType = MessageTypeRocketSpeedIncreased
    · rw [applyUpdate_speedIncreased e r hI] at happ
      by_cases hc : e.message.«by» ≤ 0
      · rw [if_pos hc] at happ; exact absurd happ (by simp)
      · rw [if_neg hc] at happ
        have := Option.some.inj happ
        subst this
        simp [hI, h0, MessageTypeRocketSpeedIncreased, MessageTypeRocketExploded]
    · by_cases hD : e.messageType = MessageTypeRocketSpeedDecreased
      · rw [applyUpdate_speedDecreased e r hD] at happ
        by_cases hc : e.message.«by» ≤ 0
        · rw [if_pos hc] at happ; exact absurd happ (by simp)
        · rw [if_neg hc] at happ
          have := Option.some.inj happ
          subst this
          simp [hD, h0, MessageTypeRocketSpeedDecreased, MessageTypeRocketExploded]
      · by_cases hE : e.messageType = MessageTypeRocketExploded
        · rw [applyUpdate_exploded e r hE] at happ
          by_cases hc : e.message.reason = ""
          · rw [if_pos hc] at happ; exact absurd happ (by simp)
          · rw [if_neg hc] at happ
            have := Option.some.inj happ
            subst this
            simp [hE]
        · by_cases hM : e.messageType = MessageTypeRocketMissionChanged
          · rw [applyUpdate_missionChanged e r hM] at happ
            by_cases hc : e.message.newMission = ""
            · rw [if_pos hc] at happ; exact absurd happ (by simp)
            · rw [if_neg hc] at happ
              have := Option.some.inj happ
              subst this
              simp [h0, hE]
          · rw [applyUpdate_unknownType e r hL hI hD hE hM] at happ
            exact absurd happ (by simp)

/-! ### Concrete fixtures -/

/-- Empty message payload. -/
def zeroContent : MessageContent :=
  { type := "", launchSpeed := 0, mission := "", «by» := 0, reason := "",
    newMission := "" }

def rocketActiveFix : RocketState :=
  { id := "a-1", type := "Falcon-9", speed := 300, mission := "ARTEMIS",
    exploded := false, reason := "", updatedAt := 10, createdAt := 1,
    lastProcessedMessageNumber := 3 }

def rocketExplodedFix : RocketState :=
  { id := "x-2", type := "Atlas", speed := 0, mission := "MOON",
    exploded := true, reason := "boom", updatedAt := 20, createdAt := 2,
    lastProcessedMessageNumber := 5 }

/-! ### C6 -/

/-- C6: the list operation does NOT produce the statuses `"Exploded"` /
`"Active"`: `ListRockets` hardcodes the lowercase literals `"exploded"` /
`"active"`, contradicting the repository's own `RocketStatusActive` /
`RocketStatusExploded` constants (and the spec).  Evaluated at a snapshot
holding one exploded and one active rocket. -/
theorem C6_status_lowercase_bug :
    (ListRockets [rocketExplodedFix, rocketActiveFix] "" "").map
        RocketSummary.status = ["exploded", "active"] ∧
      "exploded" ≠ RocketStatusExploded ∧ "active" ≠ RocketStatusActive := by
  decide

/-! ### C5 -/

def envC5 : Envelope :=
  { channel := "r5", messageNumber := 2, messageTime := 7,
    messageType := "RocketLaunched",
    message := { zeroContent with
      type := "Falcon-9", launchSpeed := 500, mission := "CREATE-TEST" } }

/-- C5 counterexample: the state installed for a previously unseen channel is
not all-zero: its `type` field is copied from the first envelope's payload
`type` (here a buffered `Launched` with `messageNumber = 2` makes `get`
return `type = "Falcon-9"`, not `""`; `id` is likewise the channel). -/
theorem C5_counterexample :
    (processMessage none envC5).2 = true ∧
      (getRocket (submitEnvelope none envC5)).map RocketState.type =
        some "Falcon-9" ∧
      (getRocket (submitEnvelope none envC5)).map RocketState.id =
        some "r5" ∧
      "Falcon-9" ≠ "" := by
  decide

/-- C5 (amended): a message for an unseen channel installs a `RocketState`
with `id` the channel, `type` copied from the envelope payload's `type`
field, empty `mission`/`reason`, `speed = 0`, `exploded = false` and
`lastApplied = 0`; a first message of known type with `messageNumber > 1` is
accepted into the buffer and a subsequent get returns exactly that installed
state (`lastApplied = 0`). -/
theorem C5_fresh_channel_buffered (e : Envelope)
    (hf : (getUpdateFuncForMessage e).isSome = true)
    (hn : 1 < e.messageNumber) :
    processMessage none e =
        (some { state := freshRocketState e, buffer := [e] }, true) ∧
      getRocket (submitEnvelope none e) = some (freshRocketState e) := by
  obtain ⟨f, hf2⟩ := Option.isSome_iff_exists.mp hf
  have hmain : processMessage none e =
      (some { state := freshRocketState e, buffer := [e] }, true) := by
    rw [processMessage_known none e f hf2]
    simp only [Option.getD_none]
    rw [ordering_buffered _ e (by simp [freshRocketState])
      (by simp [freshRocketState]; omega) (by simp [freshRocketState]; omega)]
    simp [bufferPush]
  exact ⟨hmain, by simp [getRocket, submitEnvelope, hmain]⟩

/-- Witness for C5: the amended statement holds at the concrete buffered
launch envelope `envC5`. -/
theorem C5_fresh_channel_buffered_witness :
    processMessage none envC5 =
        (some { state := freshRocketState envC5, buffer := [envC5] }, true) ∧
      getRocket (submitEnvelope none envC5) = some (freshRocketState envC5) :=
  C5_fresh_channel_buffered envC5 (by decide) (by decide)

/-! ### C1 -/

def c1Launch1 : Envelope :=
  { channel := "r4", messageNumber := 1, messageTime := 1,
    messageType := "RocketLaunched",
    message := { zeroContent with
      type := "F1", launchSpeed := 100, mission := "M1" } }

def c1Launch3 : Envelope :=
  { channel := "r4", messageNumber := 3, messageTime := 3,
    messageType := "RocketLaunched",
    message := { zeroContent with
      type := "F2", launchSpeed := 10, mission := "N" } }

def c1Exploded2 : Envelope :=
  { channel := "r4", messageNumber := 2, messageTime := 2,
    messageType := "RocketExploded",
    message := { zeroContent with reason := "boom" } }

/-- C1 counterexample: a queued `Launched` envelope (messageNumber 3) is in
the buffer, the in-order `Exploded` (messageNumber 2) sets `exploded = true`,
and the buffer afterwards is empty — the `Launched` relaunch candidate was
discarded, not retained, contradicting the claimed pruning rule. -/
theorem C1_counterexample :
    (submitAll none [c1Launch1, c1Launch3]).map RocketEntry.buffer =
        some [c1Launch3] ∧
      c1Launch3.messageType = MessageTypeRocketLaunched ∧
      (submitAll none [c1Launch1, c1Launch3, c1Exploded2]).map
        RocketEntry.buffer = some [] ∧
      (submitAll none [c1Launch1, c1Launch3, c1Exploded2]).map
        (fun en => en.state.exploded) = some true := by
  decide

/-- C1 (amended): whenever an in-order applied message (submitted directly or
applied while draining) sets `exploded` to true, the ordering buffer is
cleared entirely — every queued envelope is discarded, `Launched` envelopes
included; no relaunch candidates are retained. -/
theorem C1_explosion_clears_buffer (en en2 : RocketEntry) (e : Envelope)
    (h0 : en.state.exploded = false)
    (hsub : submitEnvelope (some en) e = some en2)
    (hex : en2.state.exploded = true) : en2.buffer = [] := by
  unfold submitEnvelope at hsub
  cases hg : getUpdateFuncForMessage e with
  | none =>
    rw [processMessage_unknown (some en) e hg] at hsub
    simp only [Option.getD_some] at hsub
    have := Option.some.inj hsub
    subst this
    rw [h0] at hex; exact absurd hex (by simp)
  | some f =>
    rw [processMessage_known (some en) e f hg] at hsub
    simp only [Option.getD_some] at hsub
    have hgate : ¬(en.state.exploded = true ∧
        e.messageType ≠ MessageTypeRocketLaunched) := by simp [h0]
    by_cases hle : e.messageNumber ≤ en.state.lastProcessedMessageNumber
    · rw [ordering_dup en e hgate hle] at hsub
      have := Option.some.inj hsub
      subst this
      rw [h0] at hex; exact absurd hex (by simp)
    · by_cases hnum : e.messageNumber = en.state.lastProcessedMessageNumber + 1
      · cases happ : applyUpdate e en.state with
        | none =>
          rw [ordering_inorder_fail en e hgate hnum happ] at hsub
          have := Option.some.inj hsub
          subst this
          rw [h0] at hex; exact absurd hex (by simp)
        | some r1 =>
          cases hex1 : r1.exploded with
          | true =>
            rw [ordering_inorder_exploded en e r1 hgate hnum happ hex1] at hsub
            have := Option.some.inj hsub
            subst this
            rfl
          | false =>
            rw [ordering_inorder_ok en e r1 hgate hnum happ hex1] at hsub
            simp only at hsub
            have := Option.some.inj hsub
            subst this
            exact processBufferedMessages_exploded_nil _ _ _
              (by simp [recordApplied, hex1]) hex
      · rw [ordering_buffered en e hgate (by omega) hnum] at hsub
        have := Option.some.inj hsub
        subst this
        rw [h0] at hex; exact absurd hex (by simp)

def c1StateAfterLaunch : RocketState :=
  { id := "r4", type := "F1", speed := 100, mission := "M1",
    exploded := false, reason := "", updatedAt := 1, createdAt := 1,
    lastProcessedMessageNumber := 1 }

def c1EntryBeforeExplosion : RocketEntry :=
  { state := c1StateAfterLaunch, buffer := [c1Launch3] }

def c1EntryAfterExplosion : RocketEntry :=
  { state := { c1StateAfterLaunch with
      exploded := true, reason := "boom", updatedAt := 2,
      lastProcessedMessageNumber := 2 },
    buffer := [] }

/-- Witness for C1: the amended statement applied at the concrete explosion
step of the counterexample scenario. -/
theorem C1_explosion_clears_buffer_witness :
    c1EntryAfterExplosion.buffer = [] :=
  C1_explosion_clears_buffer c1EntryBeforeExplosion c1EntryAfterExplosion
    c1Exploded2 (by decide) (by decide) (by decide)

/-! ### C9 -/

/-- Submitting never decreases `LastProcessedMessageNumber`. -/
theorem submit_lastProcessed_mono (en en2 : RocketEntry) (e : Envelope)
    (hsub : submitEnvelope (some en) e = some en2) :
    en.state.lastProcessedMessageNumber ≤
      en2.state.lastProcessedMessageNumber := by
  unfold submitEnvelope at hsub
  cases hg : getUpdateFuncForMessage e with
  | none =>
    rw [processMessage_unknown (some en) e hg] at hsub
    simp only [Option.getD_some] at hsub
    have := Option.some.inj hsub
    subst this; exact le_refl _
  | some f =>
    rw [processMessage_known (some en) e f hg] at hsub
    simp only [Option.getD_some] at hsub
    by_cases hgate : en.state.exploded = true ∧
        e.messageType ≠ MessageTypeRocketLaunched
    · rw [ordering_gate en e hgate.1 hgate.2] at hsub
      have := Option.some.inj hsub
      subst this; exact le_refl _
    · by_cases hle : e.messageNumber ≤ en.state.lastProcessedMessageNumber
      · rw [ordering_dup en e hgate hle] at hsub
        have := Option.some.inj hsub
        subst this; exact le_refl _
      · by_cases hnum : e.messageNumber =
            en.state.lastProcessedMessageNumber + 1
        · cases happ : applyUpdate e en.state with
          | none =>
            rw [ordering_inorder_fail en e hgate hnum happ] at hsub
            have := Option.some.inj hsub
            subst this; exact le_refl _
          | some r1 =>
            cases hex1 : r1.exploded with
            | true =>
              rw [ordering_inorder_exploded en e r1 hgate hnum happ hex1]
                at hsub
              have := Option.some.inj hsub
              subst this
              simp only [recordApplied]
              omega
            | false =>
              rw [ordering_inorder_ok en e r1 hgate hnum happ hex1] at hsub
              simp only at hsub
              have := Option.some.inj hsub
              subst this
              refine le_trans ?_ (processBufferedMessages_mono _ _ _)
              simp only [recordApplied]
              omega
        · rw [ordering_buffered en e hgate (by omega) hnum] at hsub
          have := Option.some.inj hsub
          subst this; exact le_refl _

/-- C9: once a message number has been applied on a channel
(`messageNumber ≤ lastApplied`, a condition that persists by part one), any
later submission carrying that number — whatever its type or payload — is
Rejected (`processed = false`) and leaves the entry (state and buffer)
completely unchanged. -/
theorem C9_duplicate_rejected :
    (∀ (en en2 : RocketEntry) (e : Envelope),
        submitEnvelope (some en) e = some en2 →
        en.state.lastProcessedMessageNumber ≤
          en2.state.lastProcessedMessageNumber) ∧
      ∀ (en : RocketEntry) (e : Envelope),
        e.messageNumber ≤ en.state.lastProcessedMessageNumber →
        processMessage (some en) e = (some en, false) := by
  refine ⟨submit_lastProcessed_mono, ?_⟩
  intro en e hle
  cases hg : getUpdateFuncForMessage e with
  | none => rw [processMessage_unknown (some en) e hg]; rfl
  | some f =>
    rw [processMessage_known (some en) e f hg]
    simp only [Option.getD_some]
    by_cases hgate : en.state.exploded = true ∧
        e.messageType ≠ MessageTypeRocketLaunched
    · rw [ordering_gate en e hgate.1 hgate.2]
    · rw [ordering_dup en e hgate hle]

def c9Dup : Envelope :=
  { channel := "r4", messageNumber := 1, messageTime := 9,
    messageType := "RocketMissionChanged",
    message := { zeroContent with newMission := "DUPLICATE" } }

/-- Witness for C9: at the concrete entry whose channel has already applied
message 1, a different envelope reusing number 1 is rejected unchanged, and
monotonicity holds at a concrete successful submission. -/
theorem C9_duplicate_rejected_witness :
    processMessage (some c1EntryBeforeExplosion) c9Dup =
        (some c1EntryBeforeExplosion, false) ∧
      c1EntryBeforeExplosion.state.lastProcessedMessageNumber ≤
        c1EntryAfterExplosion.state.lastProcessedMessageNumber :=
  ⟨C9_duplicate_rejected.2 c1EntryBeforeExplosion c9Dup (by decide),
    C9_duplicate_rejected.1 c1EntryBeforeExplosion c1EntryAfterExplosion
      c1Exploded2 (by decide)⟩

/-! ### C10 -/

/-- C10: while draining, a buffered envelope at the expected sequence number
whose application fails (unknown type or failed payload precondition) is
popped and discarded with `lastApplied` and `updatedAt` untouched, and the
drain continues on the remaining heap; the skipped number can still be
filled later: a redelivered envelope at the expected number whose update
succeeds is processed (`processed = true`) and advances `lastApplied` to at
least its number. -/
theorem C10_failed_buffered_discarded :
    (∀ (fuel : Nat) (r : RocketState) (next : Envelope)
        (rest : List Envelope),
        next.messageNumber = r.lastProcessedMessageNumber + 1 →
        applyUpdate next r = none →
        processBufferedMessages (fuel + 1) r (next :: rest) =
          processBufferedMessages fuel r rest) ∧
      ∀ (en : RocketEntry) (e : Envelope) (r1 : RocketState),
        en.state.exploded = false →
        e.messageNumber = en.state.lastProcessedMessageNumber + 1 →
        applyUpdate e en.state = some r1 →
        (processMessage (some en) e).2 = true ∧
          ∀ en2, (processMessage (some en) e).1 = some en2 →
            e.messageNumber ≤ en2.state.lastProcessedMessageNumber := by
  refine ⟨drain_cons_fail, ?_⟩
  intro en e r1 h0 hnum happ
  obtain ⟨f, hg⟩ := applyUpdate_some_known e en.state r1 happ
  rw [processMessage_known (some en) e f hg]
  simp only [Option.getD_some]
  have hgate : ¬(en.state.exploded = true ∧
      e.messageType ≠ MessageTypeRocketLaunched) := by simp [h0]
  cases hex1 : r1.exploded with
  | true =>
    rw [ordering_inorder_exploded en e r1 hgate hnum happ hex1]
    refine ⟨rfl, ?_⟩
    intro en2 h2
    have := Option.some.inj h2
    subst this
    simp [recordApplied]
  | false =>
    rw [ordering_inorder_ok en e r1 hgate hnum happ hex1]
    simp only
    refine ⟨by trivial, ?_⟩
    intro en2 h2
    have := Option.some.inj h2
    subst this
    refine le_trans ?_ (processBufferedMessages_mono _ _ _)
    simp [recordApplied]

def c10BadExploded : Envelope :=
  { channel := "r4", messageNumber := 2, messageTime := 4,
    messageType := "RocketExploded", message := zeroContent }

/-- Witness for C10: concrete failing buffered envelope (an `Exploded` with
empty reason at the expected number 2) is discarded by the drain, and the
concrete redelivered valid `Exploded` at number 2 is processed. -/
theorem C10_failed_buffered_discarded_witness :
    processBufferedMessages 1 c1StateAfterLaunch [c10BadExploded] =
        processBufferedMessages 0 c1StateAfterLaunch [] ∧
      (processMessage (some c1EntryBeforeExplosion) c1Exploded2).2 = true :=
  ⟨C10_failed_buffered_discarded.1 0 c1StateAfterLaunch c10BadExploded []
      (by decide) (by decide),
    (C10_failed_buffered_discarded.2 c1EntryBeforeExplosion c1Exploded2
      { c1StateAfterLaunch with exploded := true, reason := "boom" }
      (by decide) (by decide) (by decide)).1⟩

/-! ### Case analysis of a successful application -/

theorem applyUpdate_some_cases (e : Envelope) (r r1 : RocketState)
    (happ : applyUpdate e r = some r1) :
    (e.messageType = MessageTypeRocketLaunched ∧
      ¬(e.message.type = "" ∨ e.message.mission = "") ∧
      r1 = { r with
        type := e.message.type
        mission := e.message.mission
        speed := e.message.launchSpeed
        createdAt := e.messageTime
        exploded := false
        reason := "" }) ∨
    (e.messageType = MessageTypeRocketSpeedIncreased ∧ 0 < e.message.«by» ∧
      r1 = { r with speed := wrapInt64 (r.speed + e.message.«by») }) ∨
    (e.messageType = MessageTypeRocketSpeedDecreased ∧ 0 < e.message.«by» ∧
      r1 = { r with
        speed := if wrapInt64 (r.speed - e.message.«by») < 0 then 0
                 else wrapInt64 (r.speed - e.message.«by») }) ∨
    (e.messageType = MessageTypeRocketExploded ∧ e.message.reason ≠ "" ∧
      r1 = { r with exploded := true, reason := e.message.reason }) ∨
    (e.messageType = MessageTypeRocketMissionChanged ∧
      e.message.newMission ≠ "" ∧
      r1 = { r with mission := e.message.newMission }) := by
  by_cases hL : e.messageType = MessageTypeRocketLaunched
  · rw [applyUpdate_launched e r hL] at happ
    by_cases hc : e.message.type = "" ∨ e.message.mission = ""
    · rw [if_pos hc] at happ; exact absurd happ (by simp)
    · rw [if_neg hc] at happ
      exact Or.inl ⟨hL, hc, (Option.some.inj happ).symm⟩
  · by_cases hI : e.messageType = MessageTypeRocketSpeedIncreased
    · rw [applyUpdate_speedIncreased e r hI] at happ
      by_cases hc : e.message.«by» ≤ 0
      · rw [if_pos hc] at happ; exact absurd happ (by simp)
      · rw [if_neg hc] at happ
        exact Or.inr (Or.inl ⟨hI, by omega, (Option.some.inj happ).symm⟩)
    · by_cases hD : e.messageType = MessageTypeRocketSpeedDecreased
      · rw [applyUpdate_speedDecreased e r hD] at happ
        by_cases hc : e.message.«by» ≤ 0
        · rw [if_pos hc] at happ; exact absurd happ (by simp)
        · rw [if_neg hc] at happ
          exact Or.inr (Or.inr (Or.inl
            ⟨hD, by omega, (Option.some.inj happ).symm⟩))
      · by_cases hE : e.messageType = MessageTypeRocketExploded
        · rw [applyUpdate_exploded e r hE] at happ
          by_cases hc : e.message.reason = ""
          · rw [if_pos hc] at happ; exact absurd happ (by simp)
          · rw [if_neg hc] at happ
            exact Or.inr (Or.inr (Or.inr (Or.inl
              ⟨hE, hc, (Option.some.inj happ).symm⟩)))
        · by_cases hM : e.messageType = MessageTypeRocketMissionChanged
          · rw [applyUpdate_missionChanged e r hM] at happ
            by_cases hc : e.message.newMission = ""
            · rw [if_pos hc] at happ; exact absurd happ (by simp)
            · rw [if_neg hc] at happ
              exact Or.inr (Or.inr (Or.inr (Or.inr
                ⟨hM, hc, (Option.some.inj happ).symm⟩)))
          · rw [applyUpdate_unknownType e r hL hI hD hE hM] at happ
            exact absurd happ (by simp)

/-- The pushed buffer is a permutation of consing the new envelope. -/
theorem bufferPush_perm (e : Envelope) (buf : List Envelope) :
    (bufferPush e buf).Perm (e :: buf) := by
  induction buf with
  | nil => simp [bufferPush]
  | cons b rest ih =>
    simp only [bufferPush]
    split
    · exact List.Perm.refl _
    · exact (List.Perm.cons b ih).trans (List.Perm.swap e b rest)

theorem bufferPush_mem (a e : Envelope) (buf : List Envelope) :
    a ∈ bufferPush e buf ↔ a = e ∨ a ∈ buf := by
  rw [(bufferPush_perm e buf).mem_iff]
  simp

/-! ### C4 -/

/-- Per-envelope hypotheses under which the speed arithmetic is controlled:
a `Launched` payload carries a nonnegative `launchSpeed`, and a
`SpeedDecreased` payload carries a `by` representable as a Go `int` (every
decoded Go `int` is; the model's unbounded field must assume it). -/
def SpeedSafe (e : Envelope) : Prop :=
  (e.messageType = MessageTypeRocketLaunched → 0 ≤ e.message.launchSpeed) ∧
    (e.messageType = MessageTypeRocketSpeedDecreased →
      e.message.«by» ≤ maxInt64)

/-- Speed potential an envelope can contribute: an applied `Launched` resets
the speed to its `launchSpeed`, an applied `SpeedIncreased` adds its `by`,
and no other message ever increases the speed. -/
def msgPot (e : Envelope) : Int :=
  if e.messageType = MessageTypeRocketLaunched then
    max e.message.launchSpeed 0
  else if e.messageType = MessageTypeRocketSpeedIncreased then
    max e.message.«by» 0
  else 0

/-- Total speed potential of a list of envelopes. -/
def listPot (l : List Envelope) : Int := (l.map msgPot).sum

theorem msgPot_nonneg (e : Envelope) : 0 ≤ msgPot e := by
  unfold msgPot
  split
  · exact le_max_right _ _
  · split
    · exact le_max_right _ _
    · exact le_refl 0

theorem listPot_nil : listPot [] = 0 := rfl

theorem listPot_cons (e : Envelope) (l : List Envelope) :
    listPot (e :: l) = msgPot e + listPot l := by
  simp [listPot]

theorem listPot_nonneg (l : List Envelope) : 0 ≤ listPot l := by
  induction l with
  | nil => exact le_refl 0
  | cons e rest ih =>
    rw [listPot_cons]
    have := msgPot_nonneg e
    omega

theorem listPot_push (e : Envelope) (buf : List Envelope) :
    listPot (bufferPush e buf) = msgPot e + listPot buf := by
  unfold listPot
  rw [((bufferPush_perm e buf).map msgPot).sum_eq]
  simp

/-- `wrapInt64` is the identity on the 64-bit range. -/
theorem wrapInt64_eq_self (x : Int) (h1 : -9223372036854775808 ≤ x)
    (h2 : x ≤ 9223372036854775807) : wrapInt64 x = x := by
  have h3 : (x + 9223372036854775808) % 18446744073709551616 =
      x + 9223372036854775808 :=
    Int.emod_eq_of_lt (by omega) (by omega)
  unfold wrapInt64
  rw [h3]
  omega

/-- A successful application of a `SpeedSafe` envelope keeps the speed
nonnegative and raises it by at most the envelope's potential, provided the
potential cannot push it past the 64-bit maximum (so the wrapped arithmetic
coincides with the unbounded one). -/
theorem applyUpdate_speed_wrap (e : Envelope) (r r1 : RocketState)
    (hr : 0 ≤ r.speed) (hs : SpeedSafe e)
    (hbound : r.speed + msgPot e ≤ maxInt64)
    (happ : applyUpdate e r = some r1) :
    0 ≤ r1.speed ∧ r1.speed ≤ r.speed + msgPot e := by
  have hmax : maxInt64 = 9223372036854775807 := rfl
  rw [hmax] at hbound
  rcases applyUpdate_some_cases e r r1 happ with
    ⟨hty, _, h⟩ | ⟨hty, hby, h⟩ | ⟨hty, hby, h⟩ | ⟨hty, _, h⟩ | ⟨hty, _, h⟩
  · have hls := hs.1 hty
    have hp : msgPot e = e.message.launchSpeed := by
      unfold msgPot
      rw [if_pos hty, max_eq_left hls]
    have hsp : r1.speed = e.message.launchSpeed := by rw [h]
    omega
  · have hp : msgPot e = e.message.«by» := by
      unfold msgPot
      rw [if_neg (by rw [hty]; decide), if_pos hty,
        max_eq_left (by omega)]
    rw [hp] at hbound
    have hw : wrapInt64 (r.speed + e.message.«by») =
        r.speed + e.message.«by» :=
      wrapInt64_eq_self _ (by omega) (by omega)
    have hsp : r1.speed = wrapInt64 (r.speed + e.message.«by») := by rw [h]
    rw [hw] at hsp
    omega
  · have hdec := hs.2 hty
    rw [hmax] at hdec
    have hp : msgPot e = 0 := by
      unfold msgPot
      rw [if_neg (by rw [hty]; decide), if_neg (by rw [hty]; decide)]
    rw [hp] at hbound
    have hw : wrapInt64 (r.speed - e.message.«by») =
        r.speed - e.message.«by» :=
      wrapInt64_eq_self _ (by omega) (by omega)
    have hsp : r1.speed =
        if wrapInt64 (r.speed - e.message.«by») < 0 then 0
        else wrapInt64 (r.speed - e.message.«by») := by rw [h]
    rw [hw] at hsp
    split at hsp <;> omega
  · have hp : msgPot e = 0 := by
      unfold msgPot
      rw [if_neg (by rw [hty]; decide), if_neg (by rw [hty]; decide)]
    have hsp : r1.speed = r.speed := by rw [h]
    omega
  · have hp : msgPot e = 0 := by
      unfold msgPot
      rw [if_neg (by rw [hty]; decide), if_neg (by rw [hty]; decide)]
    have hsp : r1.speed = r.speed := by rw [h]
    omega

/-- Draining preserves nonnegative speed and the potential budget: the
drained state's speed plus the potential still buffered stays within the
budget, and every buffered envelope stays `SpeedSafe`. -/
theorem drain_wrap_inv (fuel : Nat) (r : RocketState) (buf : List Envelope)
    (B : Int) (hB : B ≤ maxInt64) (hr : 0 ≤ r.speed)
    (hsum : r.speed + listPot buf ≤ B) (hgood : ∀ e ∈ buf, SpeedSafe e) :
    0 ≤ (processBufferedMessages fuel r buf).1.speed ∧
      (processBufferedMessages fuel r buf).1.speed +
        listPot (processBufferedMessages fuel r buf).2 ≤ B ∧
      ∀ e ∈ (processBufferedMessages fuel r buf).2, SpeedSafe e := by
  induction fuel generalizing r buf with
  | zero => rw [drain_zero]; exact ⟨hr, hsum, hgood⟩
  | succ n ih =>
    cases buf with
    | nil => rw [drain_nil]; exact ⟨hr, hsum, hgood⟩
    | cons next rest =>
      have hgrest : ∀ e ∈ rest, SpeedSafe e :=
        fun e he => hgood e (by simp [he])
      have hnext : SpeedSafe next := hgood next (by simp)
      have hpn := msgPot_nonneg next
      have hln := listPot_nonneg rest
      rw [listPot_cons] at hsum
      by_cases hnum : next.messageNumber = r.lastProcessedMessageNumber + 1
      · cases happ : applyUpdate next r with
        | none =>
          rw [drain_cons_fail n r next rest hnum happ]
          exact ih r rest hr (by omega) hgrest
        | some r1 =>
          have hbnd : r.speed + msgPot next ≤ maxInt64 := by omega
          obtain ⟨h01, hle1⟩ :=
            applyUpdate_speed_wrap next r r1 hr hnext hbnd happ
          cases hex : r1.exploded with
          | true =>
            rw [drain_cons_apply_exploded n r r1 next rest hnum happ hex]
            refine ⟨by simpa [recordApplied] using h01, ?_,
              by intro e he; simp at he⟩
            show r1.speed + listPot [] ≤ B
            rw [listPot_nil]
            omega
          | false =>
            rw [drain_cons_apply_ok n r r1 next rest hnum happ hex]
            refine ih _ rest (by simpa [recordApplied] using h01) ?_ hgrest
            show r1.speed + listPot rest ≤ B
            omega
      · rw [drain_cons_gap n r next rest hnum]
        refine ⟨hr, ?_, hgood⟩
        show r.speed + listPot (next :: rest) ≤ B
        rw [listPot_cons]
        omega

/-- Entry-level speed invariant, parametrised by the potential budget `B`
still accounted to the channel: the speed is nonnegative, together with the
potential waiting in the buffer it fits the budget, and every buffered
envelope is `SpeedSafe`. -/
def EntrySpeedInv (en : RocketEntry) (B : Int) : Prop :=
  0 ≤ en.state.speed ∧ en.state.speed + listPot en.buffer ≤ B ∧
    ∀ e ∈ en.buffer, SpeedSafe e

theorem EntrySpeedInv_mono (en : RocketEntry) (B B2 : Int) (h : B ≤ B2)
    (hinv : EntrySpeedInv en B) : EntrySpeedInv en B2 :=
  ⟨hinv.1, hinv.2.1.trans h, hinv.2.2⟩

/-- Creating the entry for an unseen channel and processing directly agree. -/
theorem processMessage_none_eq (e : Envelope) :
    processMessage none e =
      processMessage (some { state := freshRocketState e, buffer := [] }) e :=
  rfl

/-- One submission preserves the speed invariant, enlarging the budget by
the submitted envelope's potential; the enlarged budget must stay within the
64-bit maximum so that no applied addition overflows. -/
theorem submit_speed_inv (en en2 : RocketEntry) (e : Envelope) (B : Int)
    (hinv : EntrySpeedInv en B) (he : SpeedSafe e)
    (hbound : B + msgPot e ≤ maxInt64)
    (hsub : submitEnvelope (some en) e = some en2) :
    EntrySpeedInv en2 (B + msgPot e) := by
  have hpn := msgPot_nonneg e
  have hmono : EntrySpeedInv en B → EntrySpeedInv en (B + msgPot e) :=
    EntrySpeedInv_mono en B (B + msgPot e) (by omega)
  unfold submitEnvelope at hsub
  cases hg : getUpdateFuncForMessage e with
  | none =>
    rw [processMessage_unknown (some en) e hg] at hsub
    simp only [Option.getD_some] at hsub
    have := Option.some.inj hsub
    subst this; exact hmono hinv
  | some f =>
    rw [processMessage_known (some en) e f hg] at hsub
    simp only [Option.getD_some] at hsub
    by_cases hgate : en.state.exploded = true ∧
        e.messageType ≠ MessageTypeRocketLaunched
    · rw [ordering_gate en e hgate.1 hgate.2] at hsub
      have := Option.some.inj hsub
      subst this; exact hmono hinv
    · by_cases hle : e.messageNumber ≤ en.state.lastProcessedMessageNumber
      · rw [ordering_dup en e hgate hle] at hsub
        have := Option.some.inj hsub
        subst this; exact hmono hinv
      · by_cases hnum : e.messageNumber =
            en.state.lastProcessedMessageNumber + 1
        · cases happ : applyUpdate e en.state with
          | none =>
            rw [ordering_inorder_fail en e hgate hnum happ] at hsub
            have := Option.some.inj hsub
            subst this; exact hmono hinv
          | some r1 =>
            have hlb := listPot_nonneg en.buffer
            have h1 := hinv.2.1
            have hbnd : en.state.speed + msgPot e ≤ maxInt64 := by omega
            obtain ⟨h01, hle1⟩ :=
              applyUpdate_speed_wrap e en.state r1 hinv.1 he hbnd happ
            cases hex1 : r1.exploded with
            | true =>
              rw [ordering_inorder_exploded en e r1 hgate hnum happ hex1]
                at hsub
              have := Option.some.inj hsub
              subst this
              refine ⟨by simpa [recordApplied] using h01, ?_,
                by intro a ha; simp at ha⟩
              show r1.speed + listPot [] ≤ B + msgPot e
              rw [listPot_nil]
              omega
            | false =>
              rw [ordering_inorder_ok en e r1 hgate hnum happ hex1] at hsub
              simp only at hsub
              have := Option.some.inj hsub
              subst this
              have hd := drain_wrap_inv en.buffer.length
                (recordApplied r1 e.messageNumber e.messageTime) en.buffer
                (B + msgPot e) hbound
                (by simpa [recordApplied] using h01)
                (by
                  show r1.speed + listPot en.buffer ≤ B + msgPot e
                  omega)
                hinv.2.2
              exact ⟨hd.1, hd.2.1, hd.2.2⟩
        · rw [ordering_buffered en e hgate (by omega) hnum] at hsub
          have := Option.some.inj hsub
          subst this
          have h1 := hinv.2.1
          refine ⟨hinv.1, ?_, ?_⟩
          · show en.state.speed + listPot (bufferPush e en.buffer) ≤
              B + msgPot e
            rw [listPot_push]
            omega
          · intro a ha
            rcases (bufferPush_mem a e en.buffer).mp ha with h | h
            · subst h; exact he
            · exact hinv.2.2 a h

/-- Optional-entry version of the invariant. -/
def OptSpeedInv : Option RocketEntry → Int → Prop
  | none, _ => True
  | some en, B => EntrySpeedInv en B

/-- The budgeted speed invariant holds after any sequence of `SpeedSafe`
submissions whose accumulated potential keeps the budget within the 64-bit
maximum. -/
theorem submitAll_speed_inv (l : List Envelope) (st : Option RocketEntry)
    (B : Int) (hB0 : 0 ≤ B) (hbound : B + listPot l ≤ maxInt64)
    (hl : ∀ e ∈ l, SpeedSafe e) (hst : OptSpeedInv st B) :
    OptSpeedInv (submitAll st l) (B + listPot l) := by
  induction l generalizing st B with
  | nil =>
    have h0 : B + listPot [] = B := by rw [listPot_nil]; ring
    rw [h0]
    exact hst
  | cons e rest ih =>
    have hpn := msgPot_nonneg e
    have hln := listPot_nonneg rest
    have hrest : ∀ a ∈ rest, SpeedSafe a := fun a ha => hl a (by simp [ha])
    have he : SpeedSafe e := hl e (by simp)
    rw [listPot_cons] at hbound
    have hstep : OptSpeedInv (submitEnvelope st e) (B + msgPot e) := by
      cases st with
      | none =>
        have hfresh : EntrySpeedInv
            { state := freshRocketState e, buffer := [] } B :=
          ⟨by simp [freshRocketState],
            by
              show (0:Int) + listPot [] ≤ B
              rw [listPot_nil]
              omega,
            by intro a ha; simp at ha⟩
        unfold submitEnvelope
        rw [processMessage_none_eq e]
        cases h2 : (processMessage
            (some { state := freshRocketState e, buffer := [] }) e).1 with
        | none => exact trivial
        | some en2 =>
          exact submit_speed_inv _ en2 e B hfresh he (by omega) h2
      | some en =>
        cases h2 : submitEnvelope (some en) e with
        | none => exact trivial
        | some en2 => exact submit_speed_inv en en2 e B hst he (by omega) h2
    have h2 := ih (submitEnvelope st e) (B + msgPot e) (by omega) (by omega)
      hrest hstep
    have hfold : submitAll st (e :: rest) =
        submitAll (submitEnvelope st e) rest := rfl
    have harith : B + (msgPot e + listPot rest) =
        (B + msgPot e) + listPot rest := by ring
    rw [hfold, listPot_cons, harith]
    exact h2

/-- C4 (amended): over Go's wrapping 64-bit speed arithmetic, after any
sequence of submissions in which every `Launched` envelope carries
`launchSpeed ≥ 0`, every `SpeedDecreased` carries an in-range `by`, and the
total speed potential of the sequence (nonnegative `launchSpeed`s plus
`SpeedIncreased` increments) stays within the 64-bit maximum — so that no
applied addition overflows — the channel's speed is nonnegative; and a
`SpeedDecreased` whose in-range `by` exceeds the current nonnegative speed
clamps the speed to exactly 0 while still counting as applied.  (Without
the launch-sign hypothesis the invariant fails, and without the potential
bound a wrapped addition can overflow to a negative speed: see the
counterexample.) -/
theorem C4_speed_nonneg :
    (∀ (l : List Envelope) (en : RocketEntry),
        (∀ e ∈ l, e.messageType = MessageTypeRocketLaunched →
          0 ≤ e.message.launchSpeed) →
        (∀ e ∈ l, e.messageType = MessageTypeRocketSpeedDecreased →
          e.message.«by» ≤ maxInt64) →
        listPot l ≤ maxInt64 →
        submitAll none l = some en → 0 ≤ en.state.speed) ∧
      ∀ (r : RocketState) (e : Envelope),
        e.messageType = MessageTypeRocketSpeedDecreased →
        0 < e.message.«by» → e.message.«by» ≤ maxInt64 →
        0 ≤ r.speed → r.speed < e.message.«by» →
        applyUpdate e r = some { r with speed := 0 } := by
  constructor
  · intro l en h1 h2 h3 hres
    have hall : ∀ e ∈ l, SpeedSafe e := fun e he => ⟨h1 e he, h2 e he⟩
    have hinv := submitAll_speed_inv l none 0 le_rfl (by omega) hall trivial
    rw [hres] at hinv
    exact hinv.1
  · intro r e hty hby hrange hr hlt
    have hmax : maxInt64 = 9223372036854775807 := rfl
    rw [hmax] at hrange
    have hw : wrapInt64 (r.speed - e.message.«by») =
        r.speed - e.message.«by» :=
      wrapInt64_eq_self _ (by omega) (by omega)
    rw [applyUpdate_speedDecreased e r hty, if_neg (by omega), hw,
      if_pos (by omega)]

def c4NegLaunch : Envelope :=
  { channel := "neg", messageNumber := 1, messageTime := 1,
    messageType := "RocketLaunched",
    message := { zeroContent with
      type := "F", launchSpeed := -5, mission := "M" } }

def c4BigLaunch : Envelope :=
  { channel := "ovf", messageNumber := 1, messageTime := 1,
    messageType := "RocketLaunched",
    message := { zeroContent with
      type := "F", launchSpeed := 4611686018427387904, mission := "M" } }

def c4BigInc : Envelope :=
  { channel := "ovf", messageNumber := 2, messageTime := 2,
    messageType := "RocketSpeedIncreased",
    message := { zeroContent with «by» := 4611686018427387904 } }

/-- C4 counterexample, two violations: a `Launched` envelope with
`launchSpeed = -5` passes validation (neither `validateEnvelope` nor the
update closure checks the sign) and leaves the rocket with
`speed = -5 < 0`; and even with nonnegative payloads, a `Launched` with
`launchSpeed = 2^62` followed by a `SpeedIncreased` with `by = 2^62`
overflows Go's 64-bit `int`: the wrapped sum is `-2^63 < 0`.  Both violate
the claim that no message can make the speed negative. -/
theorem C4_counterexample :
    ((submitAll none [c4NegLaunch]).map (fun en => en.state.speed) =
        some (-5) ∧ (-5 : Int) < 0) ∧
      (submitAll none [c4BigLaunch, c4BigInc]).map
          (fun en => en.state.speed) = some (-9223372036854775808) ∧
        0 ≤ c4BigLaunch.message.launchSpeed ∧
        0 < c4BigInc.message.«by» ∧
        (-9223372036854775808 : Int) < 0 := by
  decide

def c4Dec : Envelope :=
  { channel := "r1", messageNumber := 2, messageTime := 2,
    messageType := "RocketSpeedDecreased",
    message := { zeroContent with «by» := 400 } }

/-- Witness for C4: the amended statement at a concrete nonnegative-launch
sequence with small total potential, and a concrete over-large in-range
`SpeedDecreased`. -/
theorem C4_speed_nonneg_witness :
    0 ≤ c1EntryBeforeExplosion.state.speed ∧
      applyUpdate c4Dec c1StateAfterLaunch =
        some { c1StateAfterLaunch with speed := 0 } :=
  ⟨C4_speed_nonneg.1 [c1Launch1, c1Launch3] c1EntryBeforeExplosion
      (by decide) (by decide) (by decide) (by decide),
    C4_speed_nonneg.2 c1StateAfterLaunch c4Dec (by decide) (by decide)
      (by decide) (by decide) (by decide)⟩

/-! ### C3 -/

/-- Buffer-ordering invariant of a channel entry: every queued envelope is
strictly ahead of the applied prefix, and queued message numbers are
pairwise distinct. -/
def BufOrdInv (en : RocketEntry) : Prop :=
  (∀ e ∈ en.buffer, en.state.lastProcessedMessageNumber < e.messageNumber) ∧
    (en.buffer.map Envelope.messageNumber).Nodup

/-- Draining preserves the buffer-ordering invariant and only removes
envelopes. -/
theorem drain_ord_inv (fuel : Nat) (r : RocketState) (buf : List Envelope)
    (h1 : ∀ e ∈ buf, r.lastProcessedMessageNumber < e.messageNumber)
    (h2 : (buf.map Envelope.messageNumber).Nodup) :
    (∀ e ∈ (processBufferedMessages fuel r buf).2,
        (processBufferedMessages fuel r buf).1.lastProcessedMessageNumber <
          e.messageNumber) ∧
      ((processBufferedMessages fuel r buf).2.map
        Envelope.messageNumber).Nodup ∧
      ∀ e ∈ (processBufferedMessages fuel r buf).2, e ∈ buf := by
  induction fuel generalizing r buf with
  | zero => rw [drain_zero]; exact ⟨h1, h2, fun e he => he⟩
  | succ n ih =>
    cases buf with
    | nil => rw [drain_nil]; exact ⟨by simp, by simp, by simp⟩
    | cons next rest =>
      have h1rest : ∀ e ∈ rest,
          r.lastProcessedMessageNumber < e.messageNumber :=
        fun e he => h1 e (by simp [he])
      have h2rest : (rest.map Envelope.messageNumber).Nodup := by
        simpa using h2.of_cons
      by_cases hnum : next.messageNumber = r.lastProcessedMessageNumber + 1
      · cases happ : applyUpdate next r with
        | none =>
          rw [drain_cons_fail n r next rest hnum happ]
          obtain ⟨a1, a2, a3⟩ := ih r rest h1rest h2rest
          exact ⟨a1, a2, fun e he => by simp [a3 e he]⟩
        | some r1 =>
          cases hex : r1.exploded with
          | true =>
            rw [drain_cons_apply_exploded n r r1 next rest hnum happ hex]
            exact ⟨by simp, by simp, by simp⟩
          | false =>
            rw [drain_cons_apply_ok n r r1 next rest hnum happ hex]
            have hne : ∀ e ∈ rest, e.messageNumber ≠ next.messageNumber := by
              have h2c : (∀ x ∈ rest,
                  ¬x.messageNumber = next.messageNumber) ∧
                  (List.map Envelope.messageNumber rest).Nodup := by
                simpa using h2
              exact fun e he => h2c.1 e he
            have h1rec : ∀ e ∈ rest,
                (recordApplied r1 (r.lastProcessedMessageNumber + 1)
                  next.messageTime).lastProcessedMessageNumber <
                  e.messageNumber := by
              intro e he
              have := h1rest e he
              have := hne e he
              simp only [recordApplied]
              omega
            obtain ⟨a1, a2, a3⟩ := ih _ rest h1rec h2rest
            exact ⟨a1, a2, fun e he => by simp [a3 e he]⟩
      · rw [drain_cons_gap n r next rest hnum]
        exact ⟨h1, h2, fun e he => he⟩

/-- One submission preserves the buffer-ordering invariant, provided the
incoming message number is not already queued; the new buffer only contains
the incoming envelope and previously queued ones. -/
theorem submit_ord_inv (en en2 : RocketEntry) (e : Envelope)
    (hinv : BufOrdInv en)
    (hnotin : e.messageNumber ∉ en.buffer.map Envelope.messageNumber)
    (hsub : submitEnvelope (some en) e = some en2) :
    BufOrdInv en2 ∧ ∀ a ∈ en2.buffer, a ∈ e :: en.buffer := by
  unfold submitEnvelope at hsub
  cases hg : getUpdateFuncForMessage e with
  | none =>
    rw [processMessage_unknown (some en) e hg] at hsub
    simp only [Option.getD_some] at hsub
    have := Option.some.inj hsub
    subst this
    exact ⟨hinv, fun a ha => by simp [ha]⟩
  | some f =>
    rw [processMessage_known (some en) e f hg] at hsub
    simp only [Option.getD_some] at hsub
    by_cases hgate : en.state.exploded = true ∧
        e.messageType ≠ MessageTypeRocketLaunched
    · rw [ordering_gate en e hgate.1 hgate.2] at hsub
      have := Option.some.inj hsub
      subst this
      exact ⟨hinv, fun a ha => by simp [ha]⟩
    · by_cases hle : e.messageNumber ≤ en.state.lastProcessedMessageNumber
      · rw [ordering_dup en e hgate hle] at hsub
        have := Option.some.inj hsub
        subst this
        exact ⟨hinv, fun a ha => by simp [ha]⟩
      · by_cases hnum : e.messageNumber =
            en.state.lastProcessedMessageNumber + 1
        · cases happ : applyUpdate e en.state with
          | none =>
            rw [ordering_inorder_fail en e hgate hnum happ] at hsub
            have := Option.some.inj hsub
            subst this
            exact ⟨hinv, fun a ha => by simp [ha]⟩
          | some r1 =>
            cases hex1 : r1.exploded with
            | true =>
              rw [ordering_inorder_exploded en e r1 hgate hnum happ hex1]
                at hsub
              have := Option.some.inj hsub
              subst this
              exact ⟨⟨by simp, by simp⟩, by simp⟩
            | false =>
              rw [ordering_inorder_ok en e r1 hgate hnum happ hex1] at hsub
              simp only at hsub
              have := Option.some.inj hsub
              subst this
              have h1 : ∀ a ∈ en.buffer,
                  (recordApplied r1 e.messageNumber
                    e.messageTime).lastProcessedMessageNumber <
                    a.messageNumber := by
                intro a ha
                have hgt := hinv.1 a ha
                have hne : a.messageNumber ≠ e.messageNumber := by
                  intro hcontra
                  exact hnotin (by
                    rw [← hcontra]
                    exact List.mem_map_of_mem Envelope.messageNumber ha)
                simp only [recordApplied]
                omega
              obtain ⟨a1, a2, a3⟩ := drain_ord_inv en.buffer.length
                (recordApplied r1 e.messageNumber e.messageTime) en.buffer
                h1 hinv.2
              exact ⟨⟨a1, a2⟩, fun a ha => by simp [a3 a ha]⟩
        · rw [ordering_buffered en e hgate (by omega) hnum] at hsub
          have := Option.some.inj hsub
          subst this
          have hperm : ((bufferPush e en.buffer).map
              Envelope.messageNumber).Perm
              (e.messageNumber :: en.buffer.map Envelope.messageNumber) :=
            (bufferPush_perm e en.buffer).map Envelope.messageNumber
          refine ⟨⟨?_, ?_⟩, ?_⟩
          · intro a ha
            rcases (bufferPush_mem a e en.buffer).mp ha with h | h
            · subst h; simp only; omega
            · exact hinv.1 a h
          · exact hperm.nodup_iff.mpr (List.nodup_cons.mpr ⟨hnotin, hinv.2⟩)
          · intro a ha
            rcases (bufferPush_mem a e en.buffer).mp ha with h | h
            · simp [h]
            · simp [h]

/-- Queued message numbers of an optional entry. -/
def optBufNums : Option RocketEntry → List Int
  | none => []
  | some en => en.buffer.map Envelope.messageNumber

/-- Optional-entry buffer-ordering invariant. -/
def OptBufOrdInv : Option RocketEntry → Prop
  | none => True
  | some en => BufOrdInv en

/-- The buffer-ordering invariant holds after any sequence of submissions
whose message numbers are pairwise distinct and disjoint from the current
buffer. -/
theorem submitAll_ord_inv (l : List Envelope) (st : Option RocketEntry)
    (hst : OptBufOrdInv st)
    (hnodup : (optBufNums st ++ l.map Envelope.messageNumber).Nodup) :
    OptBufOrdInv (submitAll st l) := by
  induction l generalizing st with
  | nil => exact hst
  | cons e rest ih =>
    rcases List.nodup_append.mp hnodup with ⟨hn1, hn2, hdisj⟩
    have henotin : e.messageNumber ∉ optBufNums st := by
      intro hmem
      exact hdisj hmem (by simp)
    have step : ∀ (st2 : Option RocketEntry),
        st2 = submitEnvelope st e →
        OptBufOrdInv st2 ∧
          (∀ x ∈ optBufNums st2,
            x = e.messageNumber ∨ x ∈ optBufNums st) := by
      intro st2 hst2
      cases st with
      | none =>
        have hfresh : BufOrdInv { state := freshRocketState e, buffer := [] } :=
          ⟨by simp, by simp⟩
        rw [show submitEnvelope none e = submitEnvelope
            (some { state := freshRocketState e, buffer := [] }) e from rfl]
          at hst2
        cases h2 : submitEnvelope
            (some { state := freshRocketState e, buffer := [] }) e with
        | none => rw [h2] at hst2; subst hst2; exact ⟨trivial, by simp [optBufNums]⟩
        | some en2 =>
          rw [h2] at hst2
          subst hst2
          obtain ⟨b1, b2⟩ := submit_ord_inv _ en2 e hfresh (by simp) h2
          refine ⟨b1, ?_⟩
          intro x hx
          simp only [optBufNums] at hx
          obtain ⟨a, ha, hax⟩ := List.mem_map.mp hx
          have := b2 a ha
          simp only [List.mem_cons] at this
          rcases this with h | h
          · subst h; exact Or.inl hax.symm
          · simp at h
      | some en =>
        cases h2 : submitEnvelope (some en) e with
        | none => rw [h2] at hst2; subst hst2; exact ⟨trivial, by simp [optBufNums]⟩
        | some en2 =>
          rw [h2] at hst2
          subst hst2
          obtain ⟨b1, b2⟩ := submit_ord_inv en en2 e hst
            (by simpa [optBufNums] using henotin) h2
          refine ⟨b1, ?_⟩
          intro x hx
          simp only [optBufNums] at hx
          obtain ⟨a, ha, hax⟩ := List.mem_map.mp hx
          have := b2 a ha
          simp only [List.mem_cons] at this
          rcases this with h | h
          · subst h; exact Or.inl hax.symm
          · exact Or.inr (by
              simp only [optBufNums]
              exact hax ▸ List.mem_map_of_mem Envelope.messageNumber h)
    obtain ⟨s1, s2⟩ := step (submitEnvelope st e) rfl
    refine ih (submitEnvelope st e) s1 ?_
    rw [List.nodup_append]
    refine ⟨?_, hn2.of_cons, ?_⟩
    · rcases h3 : submitEnvelope st e with _ | en2
      · simp [optBufNums]
      · have := s1
        rw [h3] at this
        simpa [optBufNums, h3] using this.2
    · intro x hx
      rcases s2 x hx with h | h
      · subst h
        exact (List.nodup_cons.mp hn2).1
      · intro hmem
        exact hdisj h (by simp [hmem])

/-- C3 (amended): provided all envelopes submitted on a channel carry
pairwise-distinct message numbers, after every submit no envelope left in
the ordering buffer has `messageNumber ≤ lastApplied`.  (Without
distinctness this fails, and a future envelope reusing a buffered number is
buffered again and Accepted — not Rejected; see the counterexample.) -/
theorem C3_buffer_invariant (l : List Envelope) (en : RocketEntry)
    (hnodup : (l.map Envelope.messageNumber).Nodup)
    (hres : submitAll none l = some en) :
    ∀ e ∈ en.buffer,
      en.state.lastProcessedMessageNumber < e.messageNumber := by
  have := submitAll_ord_inv l none trivial (by simpa [optBufNums] using hnodup)
  rw [hres] at this
  exact this.1

def c3Inc2 : Envelope :=
  { channel := "r3", messageNumber := 2, messageTime := 2,
    messageType := "RocketSpeedIncreased",
    message := { zeroContent with «by» := 5 } }

def c3Launch1 : Envelope :=
  { channel := "r3", messageNumber := 1, messageTime := 1,
    messageType := "RocketLaunched",
    message := { zeroContent with
      type := "F", launchSpeed := 100, mission := "M" } }

/-- C3 counterexample: a future envelope whose `messageNumber` equals an
already-buffered one is buffered again and reported processed (`true`), not
Rejected; after the gap fills and the drain applies one copy, the other
copy remains in the buffer with `messageNumber = 2 ≤ lastApplied = 2`,
violating invariant I3 as claimed. -/
theorem C3_counterexample :
    (processMessage (submitEnvelope none c3Inc2) c3Inc2).2 = true ∧
      (submitAll none [c3Inc2, c3Inc2, c3Launch1]).map
        RocketEntry.buffer = some [c3Inc2] ∧
      (submitAll none [c3Inc2, c3Inc2, c3Launch1]).map
        (fun en => en.state.lastProcessedMessageNumber) = some 2 ∧
      c3Inc2.messageNumber ≤ 2 := by
  decide

/-- Witness for C3: the amended invariant at a concrete distinct-numbered
submission sequence (launch, then a buffered future message), instantiated
at the single buffered envelope. -/
theorem C3_buffer_invariant_witness :
    c1EntryBeforeExplosion.state.lastProcessedMessageNumber <
      c1Launch3.messageNumber :=
  C3_buffer_invariant [c1Launch1, c1Launch3] c1EntryBeforeExplosion
    (by decide) (by decide) c1Launch3 (by decide)

/-! ### C8 -/

theorem ValidSortFields_ne_empty (g : String) (h : ValidSortFields g = true) :
    g ≠ "" := by
  simp only [ValidSortFields, Bool.or_eq_true, decide_eq_true_eq] at h
  rcases h with ((((h | h) | h) | h) | h) | h <;> subst h <;> decide

/-- C8 (amended): the sort field is matched case-insensitively, a non-empty
unrecognised field falls back to sorting by `id`, and an unrecognised order
falls back to ascending; an empty sort field, however, skips sorting
entirely and returns the snapshot order unsorted (not sorted by id). -/
theorem C8_sort_fallbacks :
    (∀ (snapshot : List RocketState) (f o : String), f ≠ "" →
        ValidSortFields (toLowerAscii f) = false →
        ListRockets snapshot f o =
          sortRocketSummaries (snapshot.map summarize)
            { field := "id", order := (ParseSortOptions f o).order }) ∧
      (∀ f o : String, ValidOrders (toLowerAscii o) = false →
        (ParseSortOptions f o).order = "asc") ∧
      (∀ f o : String, ValidSortFields (toLowerAscii f) = true →
        (ParseSortOptions f o).field = toLowerAscii f) ∧
      (∀ (snapshot : List RocketState) (o : String),
        ListRockets snapshot "" o = snapshot.map summarize) := by
  refine ⟨?_, ?_, ?_, ?_⟩
  · intro snap f o hf hvalid
    simp only [ListRockets]
    rw [if_pos hf]
    simp [ParseSortOptions, hvalid]
  · intro f o hvalid
    simp [ParseSortOptions, hvalid]
  · intro f o hvalid
    simp [ParseSortOptions, hvalid, ValidSortFields_ne_empty _ hvalid]
  · intro snap o
    simp [ListRockets]

def c8StateB : RocketState :=
  { id := "b", type := "T2", speed := 1, mission := "M2", exploded := false,
    reason := "", updatedAt := 2, createdAt := 2,
    lastProcessedMessageNumber := 1 }

def c8StateA : RocketState :=
  { id := "a", type := "T1", speed := 2, mission := "M1", exploded := false,
    reason := "", updatedAt := 1, createdAt := 1,
    lastProcessedMessageNumber := 1 }

/-- C8 counterexample: with an empty sort-field string the listing is
returned in snapshot order (ids `b, a`), not sorted by id (`a, b`) as the
claim requires for unrecognised fields "including the empty string". -/
theorem C8_counterexample :
    (ListRockets [c8StateB, c8StateA] "" "asc").map RocketSummary.id =
        ["b", "a"] ∧
      (ListRockets [c8StateB, c8StateA] "id" "asc").map RocketSummary.id =
        ["a", "b"] ∧
      ListRockets [c8StateB, c8StateA] "" "asc" ≠
        ListRockets [c8StateB, c8StateA] "id" "asc" := by
  decide

/-- Witness for C8: the amended statement at concrete field/order strings
(`"bogus"`/`"DESC"`, an invalid order `"down"`, a mixed-case `"SPEED"`, and
the empty field). -/
theorem C8_sort_fallbacks_witness :
    ListRockets [c8StateB, c8StateA] "bogus" "desc" =
        sortRocketSummaries ([c8StateB, c8StateA].map summarize)
          { field := "id",
            order := (ParseSortOptions "bogus" "desc").order } ∧
      (ParseSortOptions "speed" "down").order = "asc" ∧
      (ParseSortOptions "SPEED" "asc").field = toLowerAscii "SPEED" ∧
      ListRockets [c8StateB, c8StateA] "" "desc" =
        [c8StateB, c8StateA].map summarize :=
  ⟨C8_sort_fallbacks.1 [c8StateB, c8StateA] "bogus" "desc" (by decide)
      (by decide),
    C8_sort_fallbacks.2.1 "speed" "down" (by decide),
    C8_sort_fallbacks.2.2.1 "SPEED" "asc" (by decide),
    C8_sort_fallbacks.2.2.2 [c8StateB, c8StateA] "desc"⟩

/-! ### C7: stability machinery for the insertion-sort model -/

theorem charListLt_irrefl (l : List Char) : charListLt l l = false := by
  induction l with
  | nil => rfl
  | cons a as ih =>
    simp only [charListLt]
    rw [if_neg (lt_irrefl a), if_neg (lt_irrefl a)]
    exact ih

theorem charListLt_trans (x y z : List Char)
    (h1 : charListLt x y = true) (h2 : charListLt y z = true) :
    charListLt x z = true := by
  induction x generalizing y z with
  | nil =>
    cases y with
    | nil => exact absurd h1 (by simp [charListLt])
    | cons b bs =>
      cases z with
      | nil => exact absurd h2 (by simp [charListLt])
      | cons c cs => rfl
  | cons a as ih =>
    cases y with
    | nil => exact absurd h1 (by simp [charListLt])
    | cons b bs =>
      cases z with
      | nil => exact absurd h2 (by simp [charListLt])
      | cons c cs =>
        simp only [charListLt] at h1 h2 ⊢
        by_cases hab : a < b
        · by_cases hbc : b < c
          · rw [if_pos (lt_trans hab hbc)]
          · by_cases hcb : c < b
            · rw [if_neg hbc, if_pos hcb] at h2
              exact absurd h2 (by simp)
            · have hbceq : b = c := le_antisymm (not_lt.mp hcb) (not_lt.mp hbc)
              rw [if_pos (hbceq ▸ hab)]
        · by_cases hba : b < a
          · rw [if_neg hab, if_pos hba] at h1
            exact absurd h1 (by simp)
          · have habeq : a = b := le_antisymm (not_lt.mp hba) (not_lt.mp hab)
            rw [if_neg hab, if_neg hba] at h1
            by_cases hbc : b < c
            · rw [if_pos (habeq ▸ hbc)]
            · by_cases hcb : c < b
              · rw [if_neg hbc, if_pos hcb] at h2
                exact absurd h2 (by simp)
              · have hbceq : b = c :=
                  le_antisymm (not_lt.mp hcb) (not_lt.mp hbc)
                subst habeq; subst hbceq
                rw [if_neg hab, if_neg hba] at h2
                rw [if_neg hab, if_neg hba]
                exact ih bs cs h1 h2

theorem charListLt_conn (x y : List Char)
    (h1 : charListLt x y = false) (h2 : charListLt y x = false) : x = y := by
  induction x generalizing y with
  | nil =>
    cases y with
    | nil => rfl
    | cons b bs => exact absurd h1 (by simp [charListLt])
  | cons a as ih =>
    cases y with
    | nil => exact absurd h2 (by simp [charListLt])
    | cons b bs =>
      simp only [charListLt] at h1 h2
      by_cases hab : a < b
      · rw [if_pos hab] at h1
        exact absurd h1 (by simp)
      · by_cases hba : b < a
        · rw [if_pos hba] at h2
          exact absurd h2 (by simp)
        · have habeq : a = b := le_antisymm (not_lt.mp hba) (not_lt.mp hab)
          rw [if_neg hab, if_neg hba] at h1
          rw [if_neg hba, if_neg hab] at h2
          rw [habeq, ih bs h1 h2]

theorem strLt_irrefl (a : String) : strLt a a = false :=
  charListLt_irrefl a.data

theorem strLt_trans (a b c : String) (h1 : strLt a b = true)
    (h2 : strLt b c = true) : strLt a c = true :=
  charListLt_trans a.data b.data c.data h1 h2

theorem strLt_conn (a b : String) (h1 : strLt a b = false)
    (h2 : strLt b a = false) : a = b := by
  cases a with
  | mk da =>
    cases b with
    | mk db => exact congrArg String.mk (charListLt_conn da db h1 h2)

theorem intLt_irrefl (a : Int) : intLt a a = false := by simp [intLt]

theorem intLt_trans (a b c : Int) (h1 : intLt a b = true)
    (h2 : intLt b c = true) : intLt a c = true := by
  simp only [intLt, decide_eq_true_eq] at h1 h2 ⊢
  omega

theorem intLt_conn (a b : Int) (h1 : intLt a b = false)
    (h2 : intLt b a = false) : a = b := by
  simp only [intLt, decide_eq_false_iff_not, not_lt] at h1 h2
  omega

/-- Ascending comparator derived from a key. -/
def keyAsc {α β : Type} (key : α → β) (bLt : β → β → Bool) : α → α → Bool :=
  fun a b => bLt (key a) (key b)

/-- Descending comparator derived from a key: the negation handed to
`sort.SliceStable` when `order = desc`. -/
def keyDesc {α β : Type} (key : α → β) (bLt : β → β → Bool) : α → α → Bool :=
  fun a b => !(bLt (key a) (key b))

theorem insertReversed_perm {α : Type} (less : α → α → Bool) (x : α)
    (l : List α) : (insertReversed less x l).Perm (x :: l) := by
  induction l with
  | nil => simp [insertReversed]
  | cons b rest ih =>
    simp only [insertReversed]
    split
    · exact (List.Perm.cons b ih).trans (List.Perm.swap x b rest)
    · exact List.Perm.refl _

theorem tie_eq_decide {β : Type} [DecidableEq β] (bLt : β → β → Bool)
    (hirr : ∀ x, bLt x x = false)
    (hconn : ∀ x y, bLt x y = false → bLt y x = false → x = y) (x y : β) :
    ((!(bLt x y)) && !(bLt y x)) = decide (x = y) := by
  by_cases h : x = y
  · subst h; simp [hirr]
  · cases hxy : bLt x y with
    | true => simp [hxy, h]
    | false =>
      cases hyx : bLt y x with
      | true => simp [hyx, h]
      | false => exact absurd (hconn x y hxy hyx) h

theorem insRev_asc_filter {α β : Type} [DecidableEq β] (key : α → β)
    (bLt : β → β → Bool) (hirr : ∀ x, bLt x x = false) (v : β) (x : α)
    (racc : List α) :
    (insertReversed (keyAsc key bLt) x racc).filter
        (fun a => decide (key a = v)) =
      if key x = v then
        x :: racc.filter (fun a => decide (key a = v))
      else racc.filter (fun a => decide (key a = v)) := by
  induction racc with
  | nil =>
    by_cases hx : key x = v
    · rw [if_pos hx]; simp [insertReversed, hx]
    · rw [if_neg hx]; simp [insertReversed, hx]
  | cons b r ih =>
    simp only [insertReversed, keyAsc]
    by_cases hlt : bLt (key x) (key b) = true
    · rw [if_pos hlt]
      by_cases hx : key x = v
      · have hb : ¬(key b = v) := by
          intro hb
          have hcontra := hlt
          rw [hx, hb, hirr v] at hcontra
          exact absurd hcontra (by simp)
        simp [List.filter_cons, ih, hx, hb]
      · by_cases hb : key b = v <;> simp [List.filter_cons, ih, hx, hb]
    · rw [if_neg hlt]
      by_cases hx : key x = v <;>
        by_cases hb : key b = v <;> simp [List.filter_cons, hx, hb]

theorem foldl_insRev_asc_filter {α β : Type} [DecidableEq β] (key : α → β)
    (bLt : β → β → Bool) (hirr : ∀ x, bLt x x = false) (v : β)
    (l racc : List α) :
    ((l.foldl (fun acc x => insertReversed (keyAsc key bLt) x acc)
        racc).filter (fun a => decide (key a = v))) =
      (l.filter (fun a => decide (key a = v))).reverse ++
        racc.filter (fun a => decide (key a = v)) := by
  induction l generalizing racc with
  | nil => simp
  | cons x xs ih =>
    simp only [List.foldl_cons]
    rw [ih, insRev_asc_filter key bLt hirr v]
    by_cases hx : key x = v
    · rw [if_pos hx]
      simp [List.filter_cons, hx]
    · rw [if_neg hx]
      simp [List.filter_cons, hx]

theorem sortSliceStable_asc_filter {α β : Type} [DecidableEq β]
    (key : α → β) (bLt : β → β → Bool) (hirr : ∀ x, bLt x x = false)
    (v : β) (l : List α) :
    (sortSliceStable (keyAsc key bLt) l).filter
        (fun a => decide (key a = v)) =
      l.filter (fun a => decide (key a = v)) := by
  unfold sortSliceStable
  rw [List.filter_reverse, foldl_insRev_asc_filter key bLt hirr v]
  simp

/-- The reversed accumulator of the descending pass is ascending by key. -/
def SortedAscKey {α β : Type} (key : α → β) (bLt : β → β → Bool)
    (racc : List α) : Prop :=
  racc.Pairwise (fun a c => bLt (key c) (key a) = false)

theorem insRev_desc_sorted {α β : Type} (key : α → β) (bLt : β → β → Bool)
    (hirr : ∀ x, bLt x x = false)
    (htrans : ∀ x y z, bLt x y = true → bLt y z = true → bLt x z = true)
    (x : α) (racc : List α) (h : SortedAscKey key bLt racc) :
    SortedAscKey key bLt (insertReversed (keyDesc key bLt) x racc) := by
  induction racc with
  | nil => simp [insertReversed, SortedAscKey]
  | cons b r ih =>
    rcases List.pairwise_cons.mp h with ⟨hb, hr⟩
    simp only [insertReversed, keyDesc]
    by_cases hlt : bLt (key x) (key b) = true
    · rw [if_neg (by simp [hlt])]
      refine List.pairwise_cons.mpr ⟨?_, h⟩
      intro y hy
      rcases List.mem_cons.mp hy with rfl | hyr
      · cases hby : bLt (key y) (key x) with
        | false => rfl
        | true =>
          have hcontra := htrans _ _ _ hlt hby
          rw [hirr] at hcontra
          exact absurd hcontra (by simp)
      · cases hxy : bLt (key y) (key x) with
        | false => rfl
        | true =>
          have hcontra := htrans _ _ _ hxy hlt
          rw [hb y hyr] at hcontra
          exact absurd hcontra (by simp)
    · have hlt0 : bLt (key x) (key b) = false := by
        cases hcase : bLt (key x) (key b) with
        | false => rfl
        | true => exact absurd hcase hlt
      rw [if_pos (by simp [hlt0])]
      refine List.pairwise_cons.mpr ⟨?_, ih hr⟩
      intro y hy
      rcases List.mem_cons.mp
          ((insertReversed_perm (keyDesc key bLt) x r).mem_iff.mp hy) with
        rfl | hyr
      · exact hlt0
      · exact hb y hyr

theorem insRev_desc_filter {α β : Type} [DecidableEq β] (key : α → β)
    (bLt : β → β → Bool) (hirr : ∀ x, bLt x x = false) (v : β) (x : α)
    (racc : List α) (h : SortedAscKey key bLt racc) :
    (insertReversed (keyDesc key bLt) x racc).filter
        (fun a => decide (key a = v)) =
      if key x = v then
        racc.filter (fun a => decide (key a = v)) ++ [x]
      else racc.filter (fun a => decide (key a = v)) := by
  induction racc with
  | nil =>
    by_cases hx : key x = v
    · rw [if_pos hx]; simp [insertReversed, hx]
    · rw [if_neg hx]; simp [insertReversed, hx]
  | cons b r ih =>
    rcases List.pairwise_cons.mp h with ⟨hb, hr⟩
    simp only [insertReversed, keyDesc]
    by_cases hlt : bLt (key x) (key b) = true
    · rw [if_neg (by simp [hlt])]
      by_cases hx : key x = v
      · rw [if_pos hx]
        have hempty : (b :: r).filter (fun a => decide (key a = v)) = [] := by
          rw [List.filter_eq_nil_iff]
          intro a ha
          rcases List.mem_cons.mp ha with rfl | har
          · intro hav
            have hcontra := hlt
            rw [hx, (by simpa using hav : key a = v), hirr v] at hcontra
            exact absurd hcontra (by simp)
          · intro hav
            have hba := hb a har
            rw [(show key a = v by simpa using hav)] at hba
            have hcontra := hlt
            rw [hx, hba] at hcontra
            exact absurd hcontra (by simp)
        simp [List.filter_cons, hx, hempty]
      · rw [if_neg hx]
        simp [List.filter_cons, hx]
    · have hlt0 : bLt (key x) (key b) = false := by
        cases hcase : bLt (key x) (key b) with
        | false => rfl
        | true => exact absurd hcase hlt
      rw [if_pos (by simp [hlt0])]
      by_cases hx : key x = v <;> by_cases hbv : key b = v <;>
        simp [List.filter_cons, ih hr, hx, hbv]

theorem foldl_insRev_desc_filter {α β : Type} [DecidableEq β] (key : α → β)
    (bLt : β → β → Bool) (hirr : ∀ x, bLt x x = false)
    (htrans : ∀ x y z, bLt x y = true → bLt y z = true → bLt x z = true)
    (v : β) (l racc : List α) (h : SortedAscKey key bLt racc) :
    SortedAscKey key bLt
        (l.foldl (fun acc x => insertReversed (keyDesc key bLt) x acc)
          racc) ∧
      ((l.foldl (fun acc x => insertReversed (keyDesc key bLt) x acc)
          racc).filter (fun a => decide (key a = v))) =
        racc.filter (fun a => decide (key a = v)) ++
          l.filter (fun a => decide (key a = v)) := by
  induction l generalizing racc with
  | nil => exact ⟨h, by simp⟩
  | cons x xs ih =>
    simp only [List.foldl_cons]
    obtain ⟨s1, s2⟩ := ih (insertReversed (keyDesc key bLt) x racc)
      (insRev_desc_sorted key bLt hirr htrans x racc h)
    refine ⟨s1, ?_⟩
    rw [s2, insRev_desc_filter key bLt hirr v x racc h]
    by_cases hx : key x = v
    · rw [if_pos hx]
      simp [List.filter_cons, hx]
    · rw [if_neg hx]
      simp [List.filter_cons, hx]

theorem sortSliceStable_desc_filter {α β : Type} [DecidableEq β]
    (key : α → β) (bLt : β → β → Bool) (hirr : ∀ x, bLt x x = false)
    (htrans : ∀ x y z, bLt x y = true → bLt y z = true → bLt x z = true)
    (v : β) (l : List α) :
    (sortSliceStable (keyDesc key bLt) l).filter
        (fun a => decide (key a = v)) =
      (l.filter (fun a => decide (key a = v))).reverse := by
  unfold sortSliceStable
  rw [List.filter_reverse,
    (foldl_insRev_desc_filter key bLt hirr htrans v l []
      (by simp [SortedAscKey])).2]
  simp

/-- Two summaries compare equal under a sort field. -/
def sameField (f : String) (x y : RocketSummary) : Bool :=
  !(summaryFieldLess f x y) && !(summaryFieldLess f y x)

/-- Per-field stability bundle: ascending sorts keep tied summaries in
snapshot order; descending sorts reverse them. -/
theorem stability_field {β : Type} [DecidableEq β] (fld : String)
    (key : RocketSummary → β) (bLt : β → β → Bool)
    (hirr : ∀ x, bLt x x = false)
    (htrans : ∀ x y z, bLt x y = true → bLt y z = true → bLt x z = true)
    (hconn : ∀ x y, bLt x y = false → bLt y x = false → x = y)
    (hless : ∀ x y, summaryFieldLess fld x y = bLt (key x) (key y))
    (l : List RocketSummary) (a : RocketSummary) :
    (sortRocketSummaries l { field := fld, order := "asc" }).filter
          (fun x => sameField fld x a) =
        l.filter (fun x => sameField fld x a) ∧
      (sortRocketSummaries l { field := fld, order := "desc" }).filter
          (fun x => sameField fld x a) =
        (l.filter (fun x => sameField fld x a)).reverse := by
  have hpred : ∀ x : RocketSummary,
      sameField fld x a = decide (key x = key a) := by
    intro x
    simp only [sameField, hless]
    exact tie_eq_decide bLt hirr hconn (key x) (key a)
  have hfilter : ∀ m : List RocketSummary,
      m.filter (fun x => sameField fld x a) =
        m.filter (fun x => decide (key x = key a)) :=
    fun m => List.filter_congr (fun x _ => hpred x)
  have hasc : summaryLess { field := fld, order := "asc" } =
      keyAsc key bLt := by
    funext x y
    show summaryFieldLess fld x y = keyAsc key bLt x y
    rw [hless]; rfl
  have hdesc : summaryLess { field := fld, order := "desc" } =
      keyDesc key bLt := by
    funext x y
    show (!(summaryFieldLess fld x y)) = keyDesc key bLt x y
    rw [hless]; rfl
  constructor
  · rw [hfilter, hfilter]
    rw [show sortRocketSummaries l { field := fld, order := "asc" } =
        sortSliceStable (keyAsc key bLt) l from by
      rw [sortRocketSummaries, hasc]]
    exact sortSliceStable_asc_filter key bLt hirr (key a) l
  · rw [hfilter, hfilter]
    rw [show sortRocketSummaries l { field := fld, order := "desc" } =
        sortSliceStable (keyDesc key bLt) l from by
      rw [sortRocketSummaries, hdesc]]
    exact sortSliceStable_desc_filter key bLt hirr htrans (key a) l

/-- The parsed order is always `asc` or `desc`. -/
theorem parse_order_cases (f o : String) :
    (ParseSortOptions f o).order = "asc" ∨
      (ParseSortOptions f o).order = "desc" := by
  by_cases h : toLowerAscii o ≠ "" ∧ ValidOrders (toLowerAscii o)
  · have hv : ValidOrders (toLowerAscii o) = true := h.2
    simp only [ParseSortOptions, if_pos h]
    simp only [ValidOrders, Bool.or_eq_true, decide_eq_true_eq] at hv
    exact hv
  · simp [ParseSortOptions, if_neg h]

/-- C7 (amended): for every recognised sort field (matched
case-insensitively) the listing sort keeps summaries that compare equal
under the field in their snapshot order when the order is ascending; under
descending order such tied summaries appear in reversed snapshot order (the
comparator negation breaks stability for ties); the output is in both cases
a deterministic function of the snapshot sequence. -/
theorem C7_sort_stability (f o : String) (l : List RocketSummary)
    (a : RocketSummary) (hf : ValidSortFields (toLowerAscii f) = true) :
    ((ParseSortOptions f o).order = "asc" →
        (sortRocketSummaries l (ParseSortOptions f o)).filter
            (fun x => sameField (ParseSortOptions f o).field x a) =
          l.filter (fun x => sameField (ParseSortOptions f o).field x a)) ∧
      ((ParseSortOptions f o).order = "desc" →
        (sortRocketSummaries l (ParseSortOptions f o)).filter
            (fun x => sameField (ParseSortOptions f o).field x a) =
          (l.filter
            (fun x => sameField (ParseSortOptions f o).field x a)).reverse) := by
  have hfield : (ParseSortOptions f o).field = toLowerAscii f := by
    simp [ParseSortOptions, hf, ValidSortFields_ne_empty _ hf]
  have horder := parse_order_cases f o
  have hcases : toLowerAscii f = "id" ∨ toLowerAscii f = "type" ∨
      toLowerAscii f = "speed" ∨ toLowerAscii f = "mission" ∨
      toLowerAscii f = "status" ∨ toLowerAscii f = "updatedat" := by
    simp only [ValidSortFields, Bool.or_eq_true, decide_eq_true_eq] at hf
    tauto
  cases hopts : ParseSortOptions f o with
  | mk pf po =>
    rw [hopts] at hfield horder
    simp only at hfield horder
    subst hfield
    rcases hcases with h | h | h | h | h | h <;> rw [h] <;>
      rcases horder with rfl | rfl
    · exact ⟨fun _ => (stability_field "id" RocketSummary.id strLt
          strLt_irrefl strLt_trans strLt_conn (fun x y => rfl) l a).1,
        fun hbad => absurd hbad (by decide)⟩
    · exact ⟨fun hbad => absurd hbad (by decide),
        fun _ => (stability_field "id" RocketSummary.id strLt
          strLt_irrefl strLt_trans strLt_conn (fun x y => rfl) l a).2⟩
    · exact ⟨fun _ => (stability_field "type" RocketSummary.type strLt
          strLt_irrefl strLt_trans strLt_conn (fun x y => rfl) l a).1,
        fun hbad => absurd hbad (by decide)⟩
    · exact ⟨fun hbad => absurd hbad (by decide),
        fun _ => (stability_field "type" RocketSummary.type strLt
          strLt_irrefl strLt_trans strLt_conn (fun x y => rfl) l a).2⟩
    · exact ⟨fun _ => (stability_field "speed" RocketSummary.speed intLt
          intLt_irrefl intLt_trans intLt_conn (fun x y => rfl) l a).1,
        fun hbad => absurd hbad (by decide)⟩
    · exact ⟨fun hbad => absurd hbad (by decide),
        fun _ => (stability_field "speed" RocketSummary.speed intLt
          intLt_irrefl intLt_trans intLt_conn (fun x y => rfl) l a).2⟩
    · exact ⟨fun _ => (stability_field "mission" RocketSummary.mission strLt
          strLt_irrefl strLt_trans strLt_conn (fun x y => rfl) l a).1,
        fun hbad => absurd hbad (by decide)⟩
    · exact ⟨fun hbad => absurd hbad (by decide),
        fun _ => (stability_field "mission" RocketSummary.mission strLt
          strLt_irrefl strLt_trans strLt_conn (fun x y => rfl) l a).2⟩
    · exact ⟨fun _ => (stability_field "status" RocketSummary.status strLt
          strLt_irrefl strLt_trans strLt_conn (fun x y => rfl) l a).1,
        fun hbad => absurd hbad (by decide)⟩
    · exact ⟨fun hbad => absurd hbad (by decide),
        fun _ => (stability_field "status" RocketSummary.status strLt
          strLt_irrefl strLt_trans strLt_conn (fun x y => rfl) l a).2⟩
    · exact ⟨fun _ => (stability_field "updatedat" RocketSummary.updatedAt
          intLt intLt_irrefl intLt_trans intLt_conn (fun x y => rfl) l a).1,
        fun hbad => absurd hbad (by decide)⟩
    · exact ⟨fun hbad => absurd hbad (by decide),
        fun _ => (stability_field "updatedat" RocketSummary.updatedAt
          intLt intLt_irrefl intLt_trans intLt_conn (fun x y => rfl) l a).2⟩

def c7StateB : RocketState :=
  { id := "b", type := "T", speed := 100, mission := "M", exploded := false,
    reason := "", updatedAt := 2, createdAt := 2,
    lastProcessedMessageNumber := 1 }

def c7StateA : RocketState :=
  { id := "a", type := "T", speed := 100, mission := "M", exploded := false,
    reason := "", updatedAt := 1, createdAt := 1,
    lastProcessedMessageNumber := 1 }

/-- C7 counterexample: two summaries that compare equal under `speed` do
NOT retain their snapshot order when sorted by `speed` descending — the
listing returns them reversed, falsifying stability for `desc`. -/
theorem C7_counterexample :
    sameField "speed" (summarize c7StateB) (summarize c7StateA) = true ∧
      ListRockets [c7StateB, c7StateA] "speed" "desc" =
        [summarize c7StateA, summarize c7StateB] ∧
      summarize c7StateB ≠ summarize c7StateA := by
  decide

/-- Witness for C7: the amended statement at a concrete mixed-case field
(`"Speed"`), a concrete order and a concrete snapshot. -/
theorem C7_sort_stability_witness :
    ((ParseSortOptions "Speed" "desc").order = "asc" →
        (sortRocketSummaries [summarize c7StateB, summarize c7StateA]
            (ParseSortOptions "Speed" "desc")).filter
            (fun x => sameField (ParseSortOptions "Speed" "desc").field x
              (summarize c7StateA)) =
          [summarize c7StateB, summarize c7StateA].filter
            (fun x => sameField (ParseSortOptions "Speed" "desc").field x
              (summarize c7StateA))) ∧
      ((ParseSortOptions "Speed" "desc").order = "desc" →
        (sortRocketSummaries [summarize c7StateB, summarize c7StateA]
            (ParseSortOptions "Speed" "desc")).filter
            (fun x => sameField (ParseSortOptions "Speed" "desc").field x
              (summarize c7StateA)) =
          ([summarize c7StateB, summarize c7StateA].filter
            (fun x => sameField (ParseSortOptions "Speed" "desc").field x
              (summarize c7StateA))).reverse) :=
  C7_sort_stability "Speed" "desc"
    [summarize c7StateB, summarize c7StateA] (summarize c7StateA)
    (by decide)

/-! ### C2: canonical-form machinery for permutation independence -/

/-- Context of C2: a gap-free family of `k` messages on one channel,
message `i` carrying number `i`, message 1 a valid `Launched`, and no
`Exploded`-typed message before the last position. -/
structure C2Ctx where
  k : Nat
  msg : Nat → Envelope
  ch : String
  Hnum : ∀ i, 1 ≤ i → i ≤ k → (msg i).messageNumber = (i : Int)
  Hch : ∀ i, 1 ≤ i → i ≤ k → (msg i).channel = ch
  H1ty : (msg 1).messageType = MessageTypeRocketLaunched
  H1a : (msg 1).message.type ≠ ""
  H1b : (msg 1).message.mission ≠ ""
  Hk : 1 ≤ k
  Hexp : ∀ i, 1 ≤ i → i < k →
    (msg i).messageType ≠ MessageTypeRocketExploded

/-- State installed at entry creation, as a function of the channel and the
payload `type` of the creating envelope. -/
def creationState (ch t0 : String) : RocketState :=
  { id := ch, type := t0, speed := 0, mission := "", exploded := false,
    reason := "", updatedAt := 0, createdAt := 0,
    lastProcessedMessageNumber := 0 }

/-- Rocket state after greedily applying messages `1..j` in numeric order
(the fallback branch for a failing message is never taken along chains the
proofs traverse). -/
def chainRocket (ctx : C2Ctx) (t0 : String) : Nat → RocketState
  | 0 => creationState ctx.ch t0
  | j + 1 =>
    let r := chainRocket ctx t0 j
    match applyUpdate (ctx.msg (j + 1)) r with
    | none => r
    | some r1 => { r1 with
        lastProcessedMessageNumber := (j : Int) + 1
        updatedAt := (ctx.msg (j + 1)).messageTime }

theorem chainRocket_zero (ctx : C2Ctx) (t0 : String) :
    chainRocket ctx t0 0 = creationState ctx.ch t0 := rfl

theorem chainRocket_succ_none (ctx : C2Ctx) (t0 : String) (j : Nat)
    (h : applyUpdate (ctx.msg (j + 1)) (chainRocket ctx t0 j) = none) :
    chainRocket ctx t0 (j + 1) = chainRocket ctx t0 j := by
  simp [chainRocket, h]

theorem chainRocket_succ_some (ctx : C2Ctx) (t0 : String) (j : Nat)
    (r1 : RocketState)
    (h : applyUpdate (ctx.msg (j + 1)) (chainRocket ctx t0 j) = some r1) :
    chainRocket ctx t0 (j + 1) = { r1 with
      lastProcessedMessageNumber := (j : Int) + 1
      updatedAt := (ctx.msg (j + 1)).messageTime } := by
  simp [chainRocket, h]

/-- Messages `1..c` all apply successfully along the chain. -/
def chainOk (ctx : C2Ctx) (t0 : String) (c : Nat) : Prop :=
  ∀ j, j < c →
    (applyUpdate (ctx.msg (j + 1)) (chainRocket ctx t0 j)).isSome = true

theorem chainOk_zero (ctx : C2Ctx) (t0 : String) : chainOk ctx t0 0 :=
  fun j hj => absurd hj (by omega)

theorem chainOk_succ (ctx : C2Ctx) (t0 : String) (c : Nat)
    (h : chainOk ctx t0 c)
    (hs : (applyUpdate (ctx.msg (c + 1)) (chainRocket ctx t0 c)).isSome =
      true) : chainOk ctx t0 (c + 1) := by
  intro j hj
  rcases Nat.lt_succ_iff_lt_or_eq.mp hj with h2 | rfl
  · exact h j h2
  · exact hs

theorem chain_last (ctx : C2Ctx) (t0 : String) (c : Nat)
    (hok : chainOk ctx t0 c) :
    (chainRocket ctx t0 c).lastProcessedMessageNumber = (c : Int) := by
  induction c with
  | zero => simp [chainRocket_zero, creationState]
  | succ j ih =>
    obtain ⟨r1, hr1⟩ := Option.isSome_iff_exists.mp (hok j (by omega))
    rw [chainRocket_succ_some ctx t0 j r1 hr1]
    push_cast
    rfl

theorem chain_exploded_lt (ctx : C2Ctx) (t0 : String) (c : Nat)
    (hck : c < ctx.k) : (chainRocket ctx t0 c).exploded = false := by
  induction c with
  | zero => simp [chainRocket_zero, creationState]
  | succ j ih =>
    have hj := ih (by omega)
    cases happ : applyUpdate (ctx.msg (j + 1)) (chainRocket ctx t0 j) with
    | none => rw [chainRocket_succ_none ctx t0 j happ]; exact hj
    | some r1 =>
      rw [chainRocket_succ_some ctx t0 j r1 happ]
      have hiff := applyUpdate_exploded_iff (ctx.msg (j + 1))
        (chainRocket ctx t0 j) r1 hj happ
      have hne := ctx.Hexp (j + 1) (by omega) hck
      simp only
      cases hex : r1.exploded with
      | false => rfl
      | true => exact absurd (hiff.mp hex) hne

theorem chainRocket_one (ctx : C2Ctx) (t0 : String) :
    chainRocket ctx t0 1 =
      { id := ctx.ch, type := (ctx.msg 1).message.type,
        speed := (ctx.msg 1).message.launchSpeed,
        mission := (ctx.msg 1).message.mission, exploded := false,
        reason := "", updatedAt := (ctx.msg 1).messageTime,
        createdAt := (ctx.msg 1).messageTime,
        lastProcessedMessageNumber := 1 } := by
  have happ : applyUpdate (ctx.msg 1) (creationState ctx.ch t0) =
      some { creationState ctx.ch t0 with
        type := (ctx.msg 1).message.type
        mission := (ctx.msg 1).message.mission
        speed := (ctx.msg 1).message.launchSpeed
        createdAt := (ctx.msg 1).messageTime
        exploded := false
        reason := "" } := by
    rw [applyUpdate_launched _ _ ctx.H1ty,
      if_neg (by simp [ctx.H1a, ctx.H1b])]
  rw [show (1 : Nat) = 0 + 1 from rfl, chainRocket_succ_some ctx t0 0 _
    (by rw [← chainRocket_zero ctx t0] at happ; exact happ)]
  simp [creationState, chainRocket_zero]

theorem succ_zero_isSome (ctx : C2Ctx) (t0 : String) :
    (applyUpdate (ctx.msg 1) (creationState ctx.ch t0)).isSome = true := by
  rw [applyUpdate_launched _ _ ctx.H1ty,
    if_neg (by simp [ctx.H1a, ctx.H1b])]
  rfl

theorem chain_t0_irrel (ctx : C2Ctx) (t0 t0' : String) (c : Nat)
    (hc : 1 ≤ c) : chainRocket ctx t0 c = chainRocket ctx t0' c := by
  induction c with
  | zero => exact absurd hc (by omega)
  | succ j ih =>
    rcases Nat.eq_zero_or_pos j with rfl | hpos
    · rw [chainRocket_one ctx t0, chainRocket_one ctx t0']
    · have ihe := ih hpos
      cases happ : applyUpdate (ctx.msg (j + 1)) (chainRocket ctx t0' j) with
      | none =>
        rw [chainRocket_succ_none ctx t0 j (by rw [ihe]; exact happ),
          chainRocket_succ_none ctx t0' j happ]
        exact ihe
      | some r1 =>
        rw [chainRocket_succ_some ctx t0 j r1 (by rw [ihe]; exact happ),
          chainRocket_succ_some ctx t0' j r1 happ]

/-- Ascending walk over indices collecting the buffered envelopes. -/
def bufGo (ctx : C2Ctx) (p : Nat → Bool) : Nat → Nat → List Envelope
  | 0, _ => []
  | fuel + 1, i =>
    if p i then ctx.msg i :: bufGo ctx p fuel (i + 1)
    else bufGo ctx p fuel (i + 1)

/-- An index is buffered when it was submitted and its type is known
(unknown-typed messages are rejected before buffering). -/
def bufPred (ctx : C2Ctx) (S : Finset Nat) : Nat → Bool :=
  fun i => decide (i ∈ S) && (getUpdateFuncForMessage (ctx.msg i)).isSome

/-- Canonical buffer at threshold `t`: buffered submitted indices `> t`, in
ascending (heap) order. -/
def bufList (ctx : C2Ctx) (S : Finset Nat) (t : Nat) : List Envelope :=
  bufGo ctx (bufPred ctx S) (ctx.k - t) (t + 1)

/-- Canonical channel entry at chain point `c`. -/
def canonEntry (ctx : C2Ctx) (S : Finset Nat) (c : Nat) (t0 : String) :
    RocketEntry :=
  { state := chainRocket ctx t0 c, buffer := bufList ctx S (c + 1) }

/-- `c` is the greedy chain point of the submitted set `S`. -/
def IsChainPt (ctx : C2Ctx) (S : Finset Nat) (t0 : String) (c : Nat) :
    Prop :=
  (∀ i, 1 ≤ i → i ≤ c → i ∈ S) ∧ chainOk ctx t0 c ∧
    ¬((c + 1) ∈ S ∧
      (applyUpdate (ctx.msg (c + 1)) (chainRocket ctx t0 c)).isSome = true)

/-- Invariant tying the submitted index set to the channel state. -/
def InvS (ctx : C2Ctx) (S : Finset Nat) (st : Option RocketEntry) : Prop :=
  (S = ∅ ∧ st = none) ∨
    ∃ t0 c, IsChainPt ctx S t0 c ∧ st = some (canonEntry ctx S c t0)

theorem bufGo_congr (ctx : C2Ctx) (p q : Nat → Bool) (fuel i : Nat)
    (h : ∀ j, i ≤ j → j < i + fuel → p j = q j) :
    bufGo ctx p fuel i = bufGo ctx q fuel i := by
  induction fuel generalizing i with
  | zero => rfl
  | succ n ih =>
    have hi : p i = q i := h i (by omega) (by omega)
    have hrest : bufGo ctx p n (i + 1) = bufGo ctx q n (i + 1) :=
      ih (i + 1) (fun j hj1 hj2 => h j (by omega) (by omega))
    simp only [bufGo, hi, hrest]

theorem bufGo_mem (ctx : C2Ctx) (p : Nat → Bool) (fuel i : Nat)
    (a : Envelope) (ha : a ∈ bufGo ctx p fuel i) :
    ∃ j, i ≤ j ∧ j < i + fuel ∧ p j = true ∧ a = ctx.msg j := by
  induction fuel generalizing i with
  | zero => simp [bufGo] at ha
  | succ n ih =>
    simp only [bufGo] at ha
    by_cases hp : p i = true
    · rw [if_pos hp] at ha
      rcases List.mem_cons.mp ha with rfl | harest
      · exact ⟨i, by omega, by omega, hp, rfl⟩
      · obtain ⟨j, h1, h2, h3, h4⟩ := ih (i + 1) harest
        exact ⟨j, by omega, by omega, h3, h4⟩
    · rw [if_neg hp] at ha
      obtain ⟨j, h1, h2, h3, h4⟩ := ih (i + 1) ha
      exact ⟨j, by omega, by omega, h3, h4⟩

theorem bufGo_push (ctx : C2Ctx) (p q : Nat → Bool) (fuel i n : Nat)
    (hi0 : 1 ≤ i) (hn1 : i ≤ n) (hn2 : n < i + fuel)
    (hbound : i + fuel ≤ ctx.k + 1)
    (hp : p n = false) (hq : ∀ j, q j = if j = n then true else p j) :
    bufferPush (ctx.msg n) (bufGo ctx p fuel i) = bufGo ctx q fuel i := by
  induction fuel generalizing i with
  | zero => omega
  | succ f ih =>
    by_cases hi : i = n
    · subst hi
      have hq2 : bufGo ctx q f (i + 1) = bufGo ctx p f (i + 1) :=
        bufGo_congr ctx q p f (i + 1)
          (fun j hj1 hj2 => by rw [hq j, if_neg (by omega)])
      have hqi : q i = true := by rw [hq i, if_pos rfl]
      rw [show bufGo ctx p (f + 1) i = bufGo ctx p f (i + 1) from by
        simp only [bufGo]; rw [if_neg (by simp [hp])]]
      rw [show bufGo ctx q (f + 1) i = ctx.msg i :: bufGo ctx q f (i + 1)
        from by simp only [bufGo]; rw [if_pos (by simp [hqi])]]
      rw [hq2]
      cases hgo : bufGo ctx p f (i + 1) with
      | nil => rfl
      | cons b rest =>
        have hb := bufGo_mem ctx p f (i + 1) b (by rw [hgo]; simp)
        obtain ⟨j, hj1, hj2, _, rfl⟩ := hb
        have hnumi : (ctx.msg i).messageNumber = (i : Int) :=
          ctx.Hnum i (by omega) (by omega)
        have hnumj : (ctx.msg j).messageNumber = (j : Int) :=
          ctx.Hnum j (by omega) (by omega)
        simp only [bufferPush, hnumi, hnumj]
        rw [if_pos (by exact_mod_cast (by omega : (i : Int) < (j : Int)))]
    · have hlt : i < n := by omega
      have hqi : q i = p i := by rw [hq i, if_neg (by omega)]
      by_cases hpi : p i = true
      · have hnumi : (ctx.msg i).messageNumber = (i : Int) :=
          ctx.Hnum i (by omega) (by omega)
        have hnumn : (ctx.msg n).messageNumber = (n : Int) :=
          ctx.Hnum n (by omega) (by omega)
        rw [show bufGo ctx p (f + 1) i = ctx.msg i :: bufGo ctx p f (i + 1)
          from by simp only [bufGo]; rw [if_pos (by simp [hpi])]]
        rw [show bufGo ctx q (f + 1) i = ctx.msg i :: bufGo ctx q f (i + 1)
          from by simp only [bufGo]; rw [if_pos (by simp [hqi, hpi])]]
        simp only [bufferPush, hnumi, hnumn]
        rw [if_neg (by
          intro hcon
          have h2 : (n : Int) < (i : Int) := hcon
          omega)]
        rw [ih (i + 1) (by omega) (by omega) (by omega) (by omega)]
      · have hpi0 : p i = false := by
          cases hcase : p i with
          | false => rfl
          | true => exact absurd hcase hpi
        rw [show bufGo ctx p (f + 1) i = bufGo ctx p f (i + 1) from by
          simp only [bufGo]; rw [if_neg (by simp [hpi0])]]
        rw [show bufGo ctx q (f + 1) i = bufGo ctx q f (i + 1) from by
          simp only [bufGo]; rw [if_neg (by simp [hqi, hpi0])]]
        exact ih (i + 1) (by omega) (by omega) (by omega) (by omega)

theorem bufList_empty_set (ctx : C2Ctx) (t : Nat) :
    bufList ctx ∅ t = [] := by
  unfold bufList
  have : ∀ fuel i, bufGo ctx (bufPred ctx (∅ : Finset Nat)) fuel i = [] := by
    intro fuel
    induction fuel with
    | zero => intro i; rfl
    | succ f ih =>
      intro i
      simp only [bufGo, bufPred]
      rw [if_neg (by simp)]
      exact ih (i + 1)
  exact this _ _

theorem bufList_past_end (ctx : C2Ctx) (S : Finset Nat) (t : Nat)
    (ht : ctx.k ≤ t) : bufList ctx S t = [] := by
  unfold bufList
  rw [show ctx.k - t = 0 by omega]
  rfl

theorem bufList_step (ctx : C2Ctx) (S : Finset Nat) (t : Nat)
    (ht : t < ctx.k) :
    bufList ctx S t =
      if bufPred ctx S (t + 1) then
        ctx.msg (t + 1) :: bufList ctx S (t + 1)
      else bufList ctx S (t + 1) := by
  unfold bufList
  rw [show ctx.k - t = (ctx.k - (t + 1)) + 1 by omega]
  rfl

theorem drain_gap_stop (ctx : C2Ctx) (S : Finset Nat) (t0 : String)
    (m fuel : Nat) (hok : chainOk ctx t0 m)
    (hfuel : (bufList ctx S (m + 1)).length ≤ fuel) :
    processBufferedMessages fuel (chainRocket ctx t0 m)
        (bufList ctx S (m + 1)) =
      (chainRocket ctx t0 m, bufList ctx S (m + 1)) := by
  cases hbl : bufList ctx S (m + 1) with
  | nil => rw [drain_nil]
  | cons b rest =>
    rw [hbl] at hfuel
    cases fuel with
    | zero => simp at hfuel
    | succ f =>
      have hb : b ∈ bufList ctx S (m + 1) := by rw [hbl]; simp
      obtain ⟨j, hj1, hj2, _, rfl⟩ := bufGo_mem ctx _ _ _ b hb
      have hjk : j ≤ ctx.k := by omega
      have hnumj : (ctx.msg j).messageNumber = (j : Int) :=
        ctx.Hnum j (by omega) hjk
      rw [drain_cons_gap f _ _ _ (by
        rw [hnumj, chain_last ctx t0 m hok]
        intro hcon
        have : (j : Int) = (m : Int) + 1 := hcon
        omega)]

theorem drainCanon (ctx : C2Ctx) (S : Finset Nat) (t0 : String)
    (Sub : S ⊆ Finset.Icc 1 ctx.k) :
    ∀ (fuel m : Nat), (bufList ctx S m).length ≤ fuel →
    (∀ i, 1 ≤ i → i ≤ m → i ∈ S) → chainOk ctx t0 m →
    (chainRocket ctx t0 m).exploded = false →
    ∃ c, m ≤ c ∧ IsChainPt ctx S t0 c ∧
      processBufferedMessages fuel (chainRocket ctx t0 m)
          (bufList ctx S m) =
        (chainRocket ctx t0 c, bufList ctx S (c + 1)) := by
  intro fuel
  induction fuel with
  | zero =>
    intro m hfuel hpre hok hexp
    have hnil : bufList ctx S m = [] := List.length_eq_zero.mp (by omega)
    refine ⟨m, le_refl m, ⟨hpre, hok, ?_⟩, ?_⟩
    · rintro ⟨hmem, hsucc⟩
      -- a buffered successor would be in the (empty) buffer unless past k
      by_cases hmk : m < ctx.k
      · have hstep := bufList_step ctx S m hmk
        rw [hnil] at hstep
        by_cases hbp : bufPred ctx S (m + 1) = true
        · rw [if_pos hbp] at hstep
          exact absurd hstep.symm (by simp)
        · have : ¬((m + 1) ∈ S ∧
              (getUpdateFuncForMessage (ctx.msg (m + 1))).isSome = true) := by
            intro ⟨h1, h2⟩
            exact hbp (by simp [bufPred, h1, h2])
          refine this ⟨hmem, ?_⟩
          unfold applyUpdate at hsucc
          cases hg : getUpdateFuncForMessage (ctx.msg (m + 1)) with
          | none => rw [hg] at hsucc; simp at hsucc
          | some f => rfl
      · have := Finset.mem_Icc.mp (Sub hmem)
        omega
    · rw [hnil, drain_zero]
      by_cases hmk : m < ctx.k
      · have hstep := bufList_step ctx S m hmk
        rw [hnil] at hstep
        by_cases hbp : bufPred ctx S (m + 1) = true
        · rw [if_pos hbp] at hstep
          exact absurd hstep.symm (by simp)
        · rw [if_neg hbp] at hstep
          rw [← hstep]
      · rw [bufList_past_end ctx S (m + 1) (by omega)]
  | succ f ih =>
    intro m hfuel hpre hok hexp
    by_cases hmk : m < ctx.k
    · have hstep := bufList_step ctx S m hmk
      by_cases hbp : bufPred ctx S (m + 1) = true
      · -- the next expected index is buffered
        rw [if_pos hbp] at hstep
        have hmem : (m + 1) ∈ S := by
          simp only [bufPred, Bool.and_eq_true, decide_eq_true_eq] at hbp
          exact hbp.1
        have hnum : (ctx.msg (m + 1)).messageNumber =
            (chainRocket ctx t0 m).lastProcessedMessageNumber + 1 := by
          rw [ctx.Hnum (m + 1) (by omega) (by omega),
            chain_last ctx t0 m hok]
          push_cast
          ring
        have hlen2 : (bufList ctx S (m + 1)).length ≤ f := by
          rw [hstep] at hfuel
          simpa using hfuel
        cases happ : applyUpdate (ctx.msg (m + 1)) (chainRocket ctx t0 m)
          with
        | none =>
          rw [hstep, drain_cons_fail f _ _ _ hnum happ]
          refine ⟨m, le_refl m, ⟨hpre, hok, ?_⟩,
            drain_gap_stop ctx S t0 m f hok hlen2⟩
          rintro ⟨_, hsucc⟩
          rw [happ] at hsucc
          simp at hsucc
        | some r1 =>
          have hchain : chainRocket ctx t0 (m + 1) =
              recordApplied r1
                ((chainRocket ctx t0 m).lastProcessedMessageNumber + 1)
                (ctx.msg (m + 1)).messageTime := by
            rw [chainRocket_succ_some ctx t0 m r1 happ]
            simp [recordApplied, chain_last ctx t0 m hok]
          have hok2 : chainOk ctx t0 (m + 1) :=
            chainOk_succ ctx t0 m hok (by rw [happ]; rfl)
          have hpre2 : ∀ i, 1 ≤ i → i ≤ m + 1 → i ∈ S := by
            intro i h1 h2
            rcases Nat.lt_succ_iff_lt_or_eq.mp (by omega : i < m + 2) with
              h3 | rfl
            · exact hpre i h1 (by omega)
            · exact hmem
          by_cases hex : r1.exploded = true
          · have hty := (applyUpdate_exploded_iff (ctx.msg (m + 1))
              (chainRocket ctx t0 m) r1 hexp happ).mp hex
            have hmk2 : m + 1 = ctx.k := by
              by_contra hne
              exact ctx.Hexp (m + 1) (by omega) (by omega) hty
            rw [hstep, drain_cons_apply_exploded f _ r1 _ _ hnum happ hex]
            refine ⟨m + 1, by omega, ⟨hpre2, hok2, ?_⟩, ?_⟩
            · rintro ⟨hmem2, _⟩
              have := Finset.mem_Icc.mp (Sub hmem2)
              omega
            · rw [← hchain, bufList_past_end ctx S (m + 2) (by omega)]
          · have hex0 : r1.exploded = false := by
              cases hcase : r1.exploded with
              | false => rfl
              | true => exact absurd hcase hex
            rw [hstep, drain_cons_apply_ok f _ r1 _ _ hnum happ hex0,
              ← hchain]
            have hexp2 : (chainRocket ctx t0 (m + 1)).exploded = false := by
              rw [hchain]
              simpa [recordApplied] using hex0
            obtain ⟨c, hc1, hc2, hc3⟩ := ih (m + 1) hlen2 hpre2 hok2 hexp2
            exact ⟨c, by omega, hc2, hc3⟩
      · -- the next expected index is not buffered: the drain stops
        rw [if_neg hbp] at hstep
        have hlen2 : (bufList ctx S (m + 1)).length ≤ f + 1 := by
          rw [← hstep]; exact hfuel
        refine ⟨m, le_refl m, ⟨hpre, hok, ?_⟩, ?_⟩
        · rintro ⟨hmem, hsucc⟩
          have hknown : (getUpdateFuncForMessage (ctx.msg (m + 1))).isSome =
              true := by
            unfold applyUpdate at hsucc
            cases hg : getUpdateFuncForMessage (ctx.msg (m + 1)) with
            | none => rw [hg] at hsucc; simp at hsucc
            | some g => rfl
          exact hbp (by simp [bufPred, hmem, hknown])
        · rw [hstep]
          exact drain_gap_stop ctx S t0 m (f + 1) hok hlen2
    · -- past the end of the family
      have hnil : bufList ctx S m = [] := bufList_past_end ctx S m (by omega)
      refine ⟨m, le_refl m, ⟨hpre, hok, ?_⟩, ?_⟩
      · rintro ⟨hmem, _⟩
        have := Finset.mem_Icc.mp (Sub hmem)
        omega
      · rw [hnil, drain_nil, bufList_past_end ctx S (m + 1) (by omega)]

theorem submitCanon (ctx : C2Ctx) (S : Finset Nat) (t0 : String)
    (Sub : S ⊆ Finset.Icc 1 ctx.k) (n : Nat) (hn1 : 1 ≤ n)
    (hnk : n ≤ ctx.k) (hnS : n ∉ S) (c : Nat)
    (hcp : IsChainPt ctx S t0 c) :
    ∃ c2, IsChainPt ctx (insert n S) t0 c2 ∧
      submitEnvelope (some (canonEntry ctx S c t0)) (ctx.msg n) =
        some (canonEntry ctx (insert n S) c2 t0) := by
  obtain ⟨hpre, hok, hstall⟩ := hcp
  have hck : c < ctx.k := by
    by_contra hge
    exact hnS (hpre n hn1 (by omega))
  have hexp : (chainRocket ctx t0 c).exploded = false :=
    chain_exploded_lt ctx t0 c hck
  have hlast : (chainRocket ctx t0 c).lastProcessedMessageNumber =
      (c : Int) := chain_last ctx t0 c hok
  have hgtc : c < n := by
    by_contra hle
    exact hnS (hpre n hn1 (by omega))
  have hnum : (ctx.msg n).messageNumber = (n : Int) := ctx.Hnum n hn1 hnk
  cases hg : getUpdateFuncForMessage (ctx.msg n) with
  | none =>
    have hsub : submitEnvelope (some (canonEntry ctx S c t0)) (ctx.msg n) =
        some (canonEntry ctx S c t0) := by
      unfold submitEnvelope
      rw [processMessage_unknown _ _ hg]
      rfl
    have hbufeq : bufList ctx (insert n S) (c + 1) =
        bufList ctx S (c + 1) := by
      unfold bufList
      apply bufGo_congr
      intro j hj1 hj2
      by_cases hjn : j = n
      · subst hjn; simp [bufPred, hg]
      · simp [bufPred, Finset.mem_insert, hjn]
    refine ⟨c, ⟨fun i h1 h2 => Finset.mem_insert_of_mem (hpre i h1 h2),
      hok, ?_⟩, ?_⟩
    · rintro ⟨hmem, hsucc⟩
      by_cases hcn : c + 1 = n
      · rw [← hcn] at hg
        unfold applyUpdate at hsucc
        rw [hg] at hsucc
        simp at hsucc
      · rcases Finset.mem_insert.mp hmem with h | h
        · exact hcn h
        · exact hstall ⟨h, hsucc⟩
    · rw [hsub]
      unfold canonEntry
      rw [hbufeq]
  | some fupd =>
    unfold submitEnvelope
    rw [processMessage_known _ _ fupd hg]
    simp only [Option.getD_some]
    have hgate : ¬((canonEntry ctx S c t0).state.exploded = true ∧
        (ctx.msg n).messageType ≠ MessageTypeRocketLaunched) := by
      simp [canonEntry, hexp]
    by_cases hnc : n = c + 1
    · subst hnc
      cases happ : applyUpdate (ctx.msg (c + 1)) (chainRocket ctx t0 c) with
      | none =>
        rw [ordering_inorder_fail _ _ hgate (by
            show (ctx.msg (c + 1)).messageNumber =
              (canonEntry ctx S c t0).state.lastProcessedMessageNumber + 1
            rw [hnum]
            show ((c : Nat) + 1 : Int) =
              (chainRocket ctx t0 c).lastProcessedMessageNumber + 1
            omega) happ]
        have hbufeq : bufList ctx (insert (c + 1) S) (c + 1 + 1) =
            bufList ctx S (c + 1 + 1) := by
          unfold bufList
          apply bufGo_congr
          intro j hj1 hj2
          by_cases hjn : j = c + 1
          · omega
          · simp [bufPred, Finset.mem_insert, hjn]
        have hbufeq1 : bufList ctx (insert (c + 1) S) (c + 1) =
            bufList ctx S (c + 1) := by
          unfold bufList
          apply bufGo_congr
          intro j hj1 hj2
          by_cases hjn : j = c + 1
          · omega
          · simp [bufPred, Finset.mem_insert, hjn]
        refine ⟨c, ⟨fun i h1 h2 => Finset.mem_insert_of_mem (hpre i h1 h2),
          hok, ?_⟩, ?_⟩
        · rintro ⟨_, hsucc⟩
          rw [happ] at hsucc
          simp at hsucc
        · unfold canonEntry
          rw [hbufeq1]
      | some r1 =>
        have hnumeq : (ctx.msg (c + 1)).messageNumber =
            (canonEntry ctx S c t0).state.lastProcessedMessageNumber + 1 := by
          show (ctx.msg (c + 1)).messageNumber =
            (chainRocket ctx t0 c).lastProcessedMessageNumber + 1
          rw [hnum, hlast]
          omega
        have hchain : chainRocket ctx t0 (c + 1) =
            recordApplied r1 (ctx.msg (c + 1)).messageNumber
              (ctx.msg (c + 1)).messageTime := by
          rw [chainRocket_succ_some ctx t0 c r1 happ]
          simp [recordApplied, hnum]
        have hok2 : chainOk ctx t0 (c + 1) :=
          chainOk_succ ctx t0 c hok (by rw [happ]; rfl)
        have hpre2 : ∀ i, 1 ≤ i → i ≤ c + 1 → i ∈ insert (c + 1) S := by
          intro i h1 h2
          rcases Nat.lt_succ_iff_lt_or_eq.mp (by omega : i < c + 2) with
            h3 | rfl
          · exact Finset.mem_insert_of_mem (hpre i h1 (by omega))
          · exact Finset.mem_insert_self _ _
        by_cases hex : r1.exploded = true
        · have hty := (applyUpdate_exploded_iff (ctx.msg (c + 1))
            (chainRocket ctx t0 c) r1 hexp happ).mp hex
          have hmkk : c + 1 = ctx.k := by
            by_contra hne
            exact ctx.Hexp (c + 1) (by omega) (by omega) hty
          rw [ordering_inorder_exploded _ _ r1 hgate hnumeq happ hex]
          refine ⟨c + 1, ⟨hpre2, hok2, ?_⟩, ?_⟩
          · rintro ⟨hmem, _⟩
            rcases Finset.mem_insert.mp hmem with h | h
            · omega
            · have := Finset.mem_Icc.mp (Sub h)
              omega
          · unfold canonEntry
            rw [bufList_past_end ctx _ (c + 1 + 1) (by omega), ← hchain]
        · have hex0 : r1.exploded = false := by
            cases hcase : r1.exploded with
            | false => rfl
            | true => exact absurd hcase hex
          rw [ordering_inorder_ok _ _ r1 hgate hnumeq happ hex0]
          simp only
          have hbufeq1 : (canonEntry ctx S c t0).buffer =
              bufList ctx (insert (c + 1) S) (c + 1) := by
            show bufList ctx S (c + 1) =
              bufList ctx (insert (c + 1) S) (c + 1)
            unfold bufList
            apply bufGo_congr
            intro j hj1 hj2
            by_cases hjn : j = c + 1
            · omega
            · simp [bufPred, Finset.mem_insert, hjn]
          have hexp2 : (chainRocket ctx t0 (c + 1)).exploded = false := by
            rw [hchain]
            simpa [recordApplied] using hex0
          have hrec : recordApplied r1 (ctx.msg (c + 1)).messageNumber
              (ctx.msg (c + 1)).messageTime = chainRocket ctx t0 (c + 1) :=
            hchain.symm
          rw [hbufeq1, hrec]
          obtain ⟨c2, hcc, hpt, heq⟩ := drainCanon ctx (insert (c + 1) S) t0
            (by
              intro x hx
              rcases Finset.mem_insert.mp hx with rfl | h
              · exact Finset.mem_Icc.mpr ⟨by omega, by omega⟩
              · exact Sub h)
            (bufList ctx (insert (c + 1) S) (c + 1)).length (c + 1)
            (le_refl _) hpre2 hok2 hexp2
          rw [heq]
          exact ⟨c2, hpt, rfl⟩
    · -- future message: buffered
      have hgt : (canonEntry ctx S c t0).state.lastProcessedMessageNumber <
          (ctx.msg n).messageNumber := by
        show (chainRocket ctx t0 c).lastProcessedMessageNumber <
          (ctx.msg n).messageNumber
        rw [hnum, hlast]
        exact_mod_cast hgtc
      have hne : (ctx.msg n).messageNumber ≠
          (canonEntry ctx S c t0).state.lastProcessedMessageNumber + 1 := by
        show (ctx.msg n).messageNumber ≠
          (chainRocket ctx t0 c).lastProcessedMessageNumber + 1
        rw [hnum, hlast]
        intro hcon
        have : (n : Int) = (c : Int) + 1 := hcon
        omega
      rw [ordering_buffered _ _ hgate hgt hne]
      have hpush : bufferPush (ctx.msg n) (canonEntry ctx S c t0).buffer =
          bufList ctx (insert n S) (c + 1) := by
        show bufferPush (ctx.msg n) (bufList ctx S (c + 1)) =
          bufList ctx (insert n S) (c + 1)
        unfold bufList
        apply bufGo_push ctx (bufPred ctx S) (bufPred ctx (insert n S))
          (ctx.k - (c + 1)) (c + 2) n (by omega) (by omega) (by omega)
          (by omega)
        · simp [bufPred, hnS]
        · intro j
          by_cases hjn : j = n
          · subst hjn
            simp [bufPred, hg]
          · simp [bufPred, Finset.mem_insert, hjn]
      refine ⟨c, ⟨fun i h1 h2 => Finset.mem_insert_of_mem (hpre i h1 h2),
        hok, ?_⟩, ?_⟩
      · rintro ⟨hmem, hsucc⟩
        rcases Finset.mem_insert.mp hmem with h | h
        · exact hnc h.symm
        · exact hstall ⟨h, hsucc⟩
      · show some ({ canonEntry ctx S c t0 with
          buffer := bufferPush (ctx.msg n) (canonEntry ctx S c t0).buffer })
          = some (canonEntry ctx (insert n S) c t0)
        rw [hpush]
        rfl

theorem submitCreate (ctx : C2Ctx) (n : Nat) (hn1 : 1 ≤ n)
    (hnk : n ≤ ctx.k) :
    ∃ c2, IsChainPt ctx (insert n ∅) ((ctx.msg n).message.type) c2 ∧
      submitEnvelope none (ctx.msg n) =
        some (canonEntry ctx (insert n ∅) c2 ((ctx.msg n).message.type)) := by
  have hfresh : ({ state := freshRocketState (ctx.msg n), buffer := [] } :
      RocketEntry) = canonEntry ctx ∅ 0 ((ctx.msg n).message.type) := by
    unfold canonEntry
    rw [bufList_empty_set]
    simp [freshRocketState, chainRocket_zero, creationState,
      ctx.Hch n hn1 hnk]
  have h0 : IsChainPt ctx ∅ ((ctx.msg n).message.type) 0 :=
    ⟨fun i h1 h2 => absurd (by omega : (1 : Nat) ≤ 0) (by omega),
     chainOk_zero ctx _, by rintro ⟨hmem, _⟩; simp at hmem⟩
  obtain ⟨c2, hpt, heq⟩ := submitCanon ctx ∅ ((ctx.msg n).message.type)
    (by simp) n hn1 hnk (by simp) 0 h0
  refine ⟨c2, hpt, ?_⟩
  rw [show submitEnvelope none (ctx.msg n) = submitEnvelope
      (some ({ state := freshRocketState (ctx.msg n), buffer := [] } :
        RocketEntry)) (ctx.msg n) from by
    unfold submitEnvelope
    rw [processMessage_none_eq]]
  rw [hfresh, heq]

theorem submitAllCanon (ctx : C2Ctx) :
    ∀ (l : List Nat) (S : Finset Nat) (st : Option RocketEntry),
    S ⊆ Finset.Icc 1 ctx.k → (∀ x ∈ l, 1 ≤ x ∧ x ≤ ctx.k) → l.Nodup →
    (∀ x ∈ l, x ∉ S) → InvS ctx S st →
    InvS ctx (S ∪ l.toFinset) (submitAll st (l.map ctx.msg)) := by
  intro l
  induction l with
  | nil =>
    intro S st _ _ _ _ hinv
    simpa using hinv
  | cons n rest ih =>
    intro S st Sub hbound hnodup hdisj hinv
    obtain ⟨hn1, hnk⟩ := hbound n (by simp)
    have hstep : ∃ t0 c2, IsChainPt ctx (insert n S) t0 c2 ∧
        submitEnvelope st (ctx.msg n) =
          some (canonEntry ctx (insert n S) c2 t0) := by
      rcases hinv with ⟨hS, hst⟩ | ⟨t0, c, hpt, hst⟩
      · subst hS
        subst hst
        obtain ⟨c2, hpt, heq⟩ := submitCreate ctx n hn1 hnk
        exact ⟨(ctx.msg n).message.type, c2, hpt, heq⟩
      · rw [hst]
        obtain ⟨c2, hpt2, heq⟩ := submitCanon ctx S t0 Sub n hn1 hnk
          (hdisj n (by simp)) c hpt
        exact ⟨t0, c2, hpt2, heq⟩
    obtain ⟨t0, c2, hpt2, heq⟩ := hstep
    have hrec := ih (insert n S) (some (canonEntry ctx (insert n S) c2 t0))
      (by
        intro x hx
        rcases Finset.mem_insert.mp hx with rfl | h
        · exact Finset.mem_Icc.mpr ⟨hn1, hnk⟩
        · exact Sub h)
      (fun x hx => hbound x (by simp [hx]))
      (List.nodup_cons.mp hnodup).2
      (by
        intro x hx hmem
        rcases Finset.mem_insert.mp hmem with rfl | h
        · exact (List.nodup_cons.mp hnodup).1 hx
        · exact hdisj x (by simp [hx]) h)
      (Or.inr ⟨t0, c2, hpt2, rfl⟩)
    rw [show submitAll st ((n :: rest).map ctx.msg) =
        submitAll (submitEnvelope st (ctx.msg n)) (rest.map ctx.msg)
      from rfl]
    rw [heq]
    have hsets : S ∪ (n :: rest).toFinset = (insert n S) ∪ rest.toFinset := by
      ext x
      simp only [List.toFinset_cons, Finset.mem_union, Finset.mem_insert]
      tauto
    rw [hsets]
    exact hrec

/-- C2 (amended): for a gap-free message family `1..k` on one channel whose
first message is a valid `Launched` and whose `Exploded`-typed messages (if
any) sit only at the last position `k`, the final `RocketState` after
submitting all `k` messages is the same for every submission order.
(Dropping either proviso breaks order independence: see the
counterexample.) -/
theorem C2_perm_independence (k : Nat) (msg : Nat → Envelope) (ch : String)
    (Hnum : ∀ i, 1 ≤ i → i ≤ k → (msg i).messageNumber = (i : Int))
    (Hch : ∀ i, 1 ≤ i → i ≤ k → (msg i).channel = ch)
    (H1ty : (msg 1).messageType = MessageTypeRocketLaunched)
    (H1a : (msg 1).message.type ≠ "") (H1b : (msg 1).message.mission ≠ "")
    (Hk : 1 ≤ k)
    (Hexp : ∀ i, 1 ≤ i → i < k →
      (msg i).messageType ≠ MessageTypeRocketExploded)
    (p : List Nat) (hp : p.Perm (List.range' 1 k)) :
    (submitAll none (p.map msg)).map RocketEntry.state =
      (submitAll none ((List.range' 1 k).map msg)).map RocketEntry.state := by
  let ctx : C2Ctx := ⟨k, msg, ch, Hnum, Hch, H1ty, H1a, H1b, Hk, Hexp⟩
  show (submitAll none (p.map ctx.msg)).map RocketEntry.state =
    (submitAll none ((List.range' 1 ctx.k).map ctx.msg)).map
      RocketEntry.state
  have hrange_mem : ∀ x ∈ List.range' 1 ctx.k, 1 ≤ x ∧ x ≤ ctx.k := by
    intro x hx
    have := List.mem_range'_1.mp hx
    omega
  have hp_mem : ∀ x ∈ p, 1 ≤ x ∧ x ≤ ctx.k :=
    fun x hx => hrange_mem x (hp.mem_iff.mp hx)
  have hr_nodup : (List.range' 1 ctx.k).Nodup := List.nodup_range' _ _
  have hp_nodup : p.Nodup := hp.nodup_iff.mpr hr_nodup
  have hTF : p.toFinset = (List.range' 1 ctx.k).toFinset := by
    ext x
    simp only [List.mem_toFinset]
    exact hp.mem_iff
  have h1 := submitAllCanon ctx p ∅ none (by simp) hp_mem hp_nodup
    (by simp) (Or.inl ⟨rfl, rfl⟩)
  have h2 := submitAllCanon ctx (List.range' 1 ctx.k) ∅ none (by simp)
    hrange_mem hr_nodup (by simp) (Or.inl ⟨rfl, rfl⟩)
  rw [Finset.empty_union, hTF] at h1
  rw [Finset.empty_union] at h2
  have h1S : (1 : Nat) ∈ (List.range' 1 ctx.k).toFinset := by
    rw [List.mem_toFinset, List.mem_range'_1]
    constructor
    · omega
    · have := ctx.Hk
      omega
  have hSne : (List.range' 1 ctx.k).toFinset ≠ ∅ := by
    intro h
    rw [h] at h1S
    simp at h1S
  rcases h1 with ⟨hS, _⟩ | ⟨t0, c, hpt, hst⟩
  · exact absurd hS hSne
  rcases h2 with ⟨hS, _⟩ | ⟨t0r, cr, hptr, hstr⟩
  · exact absurd hS hSne
  have hcpos : ∀ (t0x : String) (cx : Nat),
      IsChainPt ctx (List.range' 1 ctx.k).toFinset t0x cx → 1 ≤ cx := by
    rintro t0x cx ⟨hpre, hok, hstall⟩
    by_contra h0
    have hcx : cx = 0 := by omega
    subst hcx
    refine hstall ⟨h1S, ?_⟩
    rw [chainRocket_zero]
    exact succ_zero_isSome ctx t0x
  have hsucc_irrel : ∀ (ta tb : String) (j : Nat),
      (applyUpdate (ctx.msg (j + 1)) (chainRocket ctx ta j)).isSome = true →
      (applyUpdate (ctx.msg (j + 1)) (chainRocket ctx tb j)).isSome =
        true := by
    intro ta tb j h
    rcases Nat.eq_zero_or_pos j with rfl | hj
    · rw [chainRocket_zero]
      exact succ_zero_isSome ctx tb
    · rw [← chain_t0_irrel ctx ta tb j hj]
      exact h
  have huniq : ∀ (ta tb : String) (ca cb : Nat),
      IsChainPt ctx (List.range' 1 ctx.k).toFinset ta ca →
      IsChainPt ctx (List.range' 1 ctx.k).toFinset tb cb → ca ≤ cb →
      ca = cb := by
    rintro ta tb ca cb ⟨hpa, hoka, hsta⟩ ⟨hpb, hokb, hstb⟩ hle
    by_contra hne
    have hlt : ca < cb := by omega
    exact hsta ⟨hpb (ca + 1) (by omega) (by omega),
      hsucc_irrel tb ta ca (hokb ca hlt)⟩
  have hcc : c = cr := by
    rcases le_total c cr with h | h
    · exact huniq t0 t0r c cr hpt hptr h
    · exact (huniq t0r t0 cr c hptr hpt h).symm
  rw [hst, hstr, ← hcc]
  simp only [Option.map_some, canonEntry]
  rw [chain_t0_irrel ctx t0 t0r c (hcpos t0 c hpt)]

def c2a1 : Envelope :=
  { channel := "cx", messageNumber := 1, messageTime := 1,
    messageType := "RocketLaunched",
    message := { zeroContent with
      type := "F1", launchSpeed := 100, mission := "M1" } }

def c2a2 : Envelope :=
  { channel := "cx", messageNumber := 2, messageTime := 2,
    messageType := "RocketExploded",
    message := { zeroContent with reason := "boom" } }

def c2a3 : Envelope :=
  { channel := "cx", messageNumber := 3, messageTime := 3,
    messageType := "RocketLaunched",
    message := { zeroContent with
      type := "F2", launchSpeed := 10, mission := "N" } }

def c2b1 : Envelope :=
  { channel := "cy", messageNumber := 1, messageTime := 1,
    messageType := "RocketMissionChanged",
    message := { zeroContent with newMission := "X" } }

def c2b2 : Envelope :=
  { channel := "cy", messageNumber := 2, messageTime := 2,
    messageType := "RocketSpeedIncreased",
    message := { zeroContent with «by» := 5, type := "Z" } }

/-- C2 counterexample: permutation independence fails as claimed.  First, a
gap-free set `1..3` containing an `Exploded` (number 2) followed by a later
`Launched` (number 3): submitted in order the relaunch is applied, while the
reverse order clears the buffered relaunch on explosion — different final
states.  Second, even without any `Exploded`, when message 1 is not a valid
`Launched` the creation-time copy of the payload `type` field makes the
final state depend on which message arrived first. -/
theorem C2_counterexample :
    ([c2a3, c2a2, c2a1].Perm [c2a1, c2a2, c2a3] ∧
        (submitAll none [c2a1, c2a2, c2a3]).map RocketEntry.state ≠
          (submitAll none [c2a3, c2a2, c2a1]).map RocketEntry.state) ∧
      ([c2b2, c2b1].Perm [c2b1, c2b2] ∧
        (submitAll none [c2b1, c2b2]).map RocketEntry.state ≠
          (submitAll none [c2b2, c2b1]).map RocketEntry.state) := by
  decide

def c2w1 : Envelope :=
  { channel := "cw", messageNumber := 1, messageTime := 1,
    messageType := "RocketLaunched",
    message := { zeroContent with
      type := "F", launchSpeed := 100, mission := "M" } }

def c2w2 : Envelope :=
  { channel := "cw", messageNumber := 2, messageTime := 2,
    messageType := "RocketSpeedIncreased",
    message := { zeroContent with «by» := 10 } }

def c2w3 : Envelope :=
  { channel := "cw", messageNumber := 3, messageTime := 3,
    messageType := "RocketMissionChanged",
    message := { zeroContent with newMission := "M2" } }

def c2wMsg : Nat → Envelope := fun i =>
  if i = 1 then c2w1 else if i = 2 then c2w2 else if i = 3 then c2w3
  else c2w1

/-- Witness for C2: the amended statement at a concrete valid 3-message
family submitted in the order `3, 1, 2`. -/
theorem C2_perm_independence_witness :
    (submitAll none ([3, 1, 2].map c2wMsg)).map RocketEntry.state =
      (submitAll none ((List.range' 1 3).map c2wMsg)).map
        RocketEntry.state :=
  C2_perm_independence 3 c2wMsg "cw"
    (by intro i h1 h2; interval_cases i <;> rfl)
    (by intro i h1 h2; interval_cases i <;> rfl)
    (by decide) (by decide) (by decide) (by decide)
    (by intro i h1 h2; interval_cases i <;> decide)
    [3, 1, 2] (by decide)
